import Mathlib

set_option maxRecDepth 8000

/-
Verification of the constant-database library `cdblib.py` (python-pure-cdb).

A Python 2 `str` (byte string) is modelled as `List Nat`; the in-memory
image `Reader.data` likewise.  Machine arithmetic is `Nat` with explicit
reductions modulo 2^32 where the code masks or packs.  The writer's
file-object side effects are modelled by explicit state passing: `Writer`
holds the bytes written after the 2048-byte placeholder header together
with the 256 pending-entry buckets, and `finalize` returns the complete
image.  `might_mask` is the identity on every hash function other than the
Python builtin `hash`, so `Reader`/`Writer` operations simply take the
effective hash function as an argument.
-/

namespace Cdblib

/-- Byte strings: each element is one byte value of a Python 2 `str`. -/
abbrev Bytes := List Nat

/-- Shallow embedding of `djb_hash` (cdblib.py lines 20-25): start from
`h = 5381` and fold `h = (((h << 5) + h) ^ ord(c)) & 0xffffffff` over the
bytes of the key. -/
def djb_hash (s : Bytes) : Nat :=
  s.foldl (fun h c => (((h <<< 5) + h) ^^^ c) &&& 0xffffffff) 5381

/-- Shallow embedding of `might_mask` (cdblib.py lines 30-36).  The Python
code tests function identity (`fn is hash`) and the value of the builtin
`hash('dave')`; these two runtime facts are passed as explicit parameters.
The builtin `hash` may return negative values, hence `Int`; Python's
`x & 0xffffffff` on an arbitrary integer is `Int.emod x (2^32)`. -/
def might_mask (fnIsBuiltinHash : Bool) (hashDave : Int)
    (fn : Bytes → Int) : Bytes → Int :=
  if fnIsBuiltinHash = true ∧ hashDave ≠ 841352530 then
    fun s => fn s % 4294967296
  else fn

/-- Little-endian 4-byte encoding of one `<L` field of `Struct('<LL').pack`
(cdblib.py line 28). -/
def le4 (n : Nat) : Bytes :=
  [n % 256, n / 256 % 256, n / 65536 % 256, n / 16777216 % 256]

/-- `write_2_le4 = Struct('<LL').pack` (cdblib.py line 28). -/
def write_2_le4 (a b : Nat) : Bytes := le4 a ++ le4 b

/-- Byte of the in-memory image at index `i`.  Every read the code performs
is in bounds for the images considered, so the out-of-bounds default never
shows up in the statements proved below. -/
def byteAt (data : Bytes) (i : Nat) : Nat := data.getD i 0

/-- Little-endian 4-byte decode at position `pos`. -/
def un4 (data : Bytes) (pos : Nat) : Nat :=
  byteAt data pos + 256 * byteAt data (pos + 1) + 65536 * byteAt data (pos + 2) +
    16777216 * byteAt data (pos + 3)

/-- `read_2_le4 = Struct('<LL').unpack` (cdblib.py line 27) applied to the
slice `data[pos:pos+8]`. -/
def read_2_le4 (data : Bytes) (pos : Nat) : Nat × Nat :=
  (un4 data pos, un4 data (pos + 4))

/-- Python slice `data[pos:pos+len]`. -/
def slice (data : Bytes) (pos len : Nat) : Bytes := (data.drop pos).take len

/-- Writer state: `body` is everything written after the 2048-byte
placeholder header, `unordered` is `self._unordered` (cdblib.py line 201),
the 256 per-bucket pending `(hash, record-offset)` lists. -/
structure Writer where
  body : Bytes
  unordered : List (List (Nat × Nat))

/-- `Writer.__init__` (cdblib.py lines 194-202): the 2048-byte placeholder
is written (accounted for in every offset below) and the 256 buckets start
empty. -/
def Writer.init : Writer := ⟨[], List.replicate 256 []⟩

/-- `Writer.put` (cdblib.py lines 204-214): append the length-prefixed
record at the current offset (`self.fp.tell()` is `2048 + body.length`)
and record `(h, pos)` in bucket `h & 0xff`. -/
def put (f : Bytes → Nat) (w : Writer) (key value : Bytes) : Writer :=
  let pos := 2048 + w.body.length
  let h := f key
  { body := w.body ++ write_2_le4 key.length value.length ++ key ++ value
    unordered := w.unordered.set (h &&& 0xff)
      (w.unordered.getD (h &&& 0xff) [] ++ [(h, pos)]) }

/-- One placement step of `Writer.finalize` (cdblib.py lines 260-265):
probe from `where = (pair[0] >> 8) % length`; the visiting order
`chain(xrange(where, length), xrange(0, where))` is index
`(where + j) % length` for `j = 0, ..., length - 1`; the pair lands on the
first visited slot whose hash field is `0` (no slot free: pair dropped,
matching the Python loop falling through without `break`). -/
def placePair (ordered : List (Nat × Nat)) (p : Nat × Nat) : List (Nat × Nat) :=
  let length := ordered.length
  let home := (p.1 >>> 8) % length
  match (List.range length).find?
      (fun j => (ordered.getD ((home + j) % length) (0, 0)).1 == 0) with
  | some j => ordered.set ((home + j) % length) p
  | none => ordered

/-- The `ordered` secondary table one bucket obtains in `Writer.finalize`
(cdblib.py lines 258-265): `length = len(tbl) << 1` slots initialised to
`(0, 0)`, each pending pair placed in insertion order. -/
def buildTable (tbl : List (Nat × Nat)) : List (Nat × Nat) :=
  tbl.foldl placePair (List.replicate (tbl.length <<< 1) (0, 0))

/-- `Writer._write_tbl` (cdblib.py lines 246-250): serialize a sequence of
pairs with `write_2_le4`. -/
def tblBytes (t : List (Nat × Nat)) : Bytes :=
  (t.map (fun p => write_2_le4 p.1 p.2)).flatten

/-- `Writer.finalize` (cdblib.py lines 252-271): for each bucket in order,
append its built table to the output, recording `(self.fp.tell(), length)`
in `index`; finally seek to 0 and overwrite the placeholder with the
serialized 256-entry index.  Returns the finished image. -/
def finalize (w : Writer) : Bytes :=
  let step := fun (acc : Bytes × List (Nat × Nat)) (tbl : List (Nat × Nat)) =>
    (acc.1 ++ tblBytes (buildTable tbl),
     acc.2 ++ [(2048 + acc.1.length, tbl.length <<< 1)])
  let r := w.unordered.foldl step (w.body, [])
  tblBytes r.2 ++ r.1

/-- The image produced by a fresh `Writer`, the sequence of `put` calls
given by `es`, and one `finalize`, all with hash function `f`. -/
def image (f : Bytes → Nat) (es : List (Bytes × Bytes)) : Bytes :=
  finalize (es.foldl (fun w e => put f w e.1 e.2) Writer.init)

/-- Python `min` over a sequence (nonempty at every use site). -/
def listMin : List Nat → Nat
  | [] => 0
  | x :: r => r.foldl Nat.min x

/-- The `table_start` computation of `Reader.iteritems` (cdblib.py lines
70-75): minimum `table_offset` over the 256 header entries, read at
positions `0, 8, ..., 2040`. -/
def table_start (data : Bytes) : Nat :=
  listMin ((List.range 256).map (fun i => (read_2_le4 data (8 * i)).1))

/-- The scanning loop of `Reader.iteritems` (cdblib.py lines 77-88). -/
def iterAux (data : Bytes) (ts : Nat) (pos : Nat) : List (Bytes × Bytes) :=
  if _h : pos < ts then
    let klen := (read_2_le4 data pos).1
    let dlen := (read_2_le4 data pos).2
    (slice data (pos + 8) klen, slice data (pos + 8 + klen) dlen) ::
      iterAux data ts (pos + 8 + klen + dlen)
  else []
termination_by ts - pos
decreasing_by omega

/-- `Reader.iteritems` (cdblib.py lines 68-88); `keys`, `values`, `items`
are defined from it one-for-one. -/
def iteritems (data : Bytes) : List (Bytes × Bytes) :=
  iterAux data (table_start data) 2048

/-- `Reader.__len__` (cdblib.py lines 112-118): the sum over the 256 header
entries of the second unpacked field (`table_length`). -/
def reader_len (data : Bytes) : Nat :=
  ((List.range 256).map (fun i => (read_2_le4 data (8 * i)).2)).sum

/-- The `Reader.__init__` acceptance check (cdblib.py lines 49-53): an
image shorter than 2048 bytes raises `IOError` (`none`); otherwise the
reader holds the image. -/
def reader_init (data : Bytes) : Option Bytes :=
  if data.length < 2048 then none else some data

/-- `Reader._get_value` (cdblib.py lines 57-66): decode the record at
`pos`, byte-compare its key against the query key, return its value on
match and `None` otherwise. -/
def _get_value (data : Bytes) (pos : Nat) (key : Bytes) : Option Bytes :=
  let klen := (read_2_le4 data pos).1
  let dlen := (read_2_le4 data pos).2
  if slice data (pos + 8) klen = key then
    some (slice data (pos + 8 + klen) dlen)
  else none

/-- `xrange(a, b, 8)` as used for slot positions in `Reader.gets`
(`b - a` is a multiple of 8 at both use sites). -/
def xrange8 (a b : Nat) : List Nat :=
  (List.range ((b - a) / 8)).map (fun j => a + 8 * j)

/-- The slot loop of `Reader.gets` (cdblib.py lines 131-140): stop at a
slot whose hash field is `0`; at a slot whose hash field equals `h`, yield
`_get_value` of its record offset when that returns a value. -/
def getsAux (data : Bytes) (h : Nat) (key : Bytes) : List Nat → List Bytes
  | [] => []
  | pos :: rest =>
    let rec_h := (read_2_le4 data pos).1
    let rec_pos := (read_2_le4 data pos).2
    if rec_h = 0 then []
    else if rec_h = h then
      match _get_value data rec_pos key with
      | some v => v :: getsAux data h key rest
      | none => getsAux data h key rest
    else getsAux data h key rest

/-- `Reader.gets` (cdblib.py lines 120-140). -/
def gets (f : Bytes → Nat) (data : Bytes) (key : Bytes) : List Bytes :=
  let h := f key
  let idx := (h <<< 3) &&& 2047
  let start := (read_2_le4 data idx).1
  let nslots := (read_2_le4 data idx).2
  if nslots = 0 then []
  else
    let endp := start + (nslots <<< 3)
    let slot_off := start + (((h >>> 8) % nslots) <<< 3)
    getsAux data h key (xrange8 slot_off endp ++ xrange8 start slot_off)

/-- `Reader.get` with no default supplied (cdblib.py lines 146-150):
`KeyError(key)` is modelled as `Except.error key`. -/
def get (f : Bytes → Nat) (data : Bytes) (key : Bytes) : Except Bytes Bytes :=
  match gets f data key with
  | [] => Except.error key
  | v :: _ => Except.ok v

/-- `Reader.get` with a default supplied (cdblib.py line 153):
`chain(self.gets(key), (default,)).next()`.  The default is an arbitrary
Python object, so its type is a parameter and `Sum.inr` returns it
untouched. -/
def get_default {α : Type} (f : Bytes → Nat) (data : Bytes) (key : Bytes)
    (default : α) : Bytes ⊕ α :=
  match gets f data key with
  | [] => Sum.inr default
  | v :: _ => Sum.inl v

/-! Derived descriptions of the writer's output, used to state the layout
lemmas.  These recompute, entry by entry, what the `Writer` state fold
produces; the agreement is proved, not assumed. -/

/-- Serialized form of one record as `put` appends it. -/
def recBytes (e : Bytes × Bytes) : Bytes :=
  write_2_le4 e.1.length e.2.length ++ e.1 ++ e.2

/-- The record region: all records in `put` order. -/
def dataRegion (es : List (Bytes × Bytes)) : Bytes := (es.map recBytes).flatten

/-- Each entry together with the `(hash, record-offset)` pair `put` appends
to its bucket; offsets accumulate from `pos`. -/
def tagged (f : Bytes → Nat) : List (Bytes × Bytes) → Nat →
    List ((Nat × Nat) × (Bytes × Bytes))
  | [], _ => []
  | e :: t, pos => ((f e.1, pos), e) :: tagged f t (pos + (recBytes e).length)

/-- The `(hash, record-offset)` pairs of all entries, in `put` order. -/
def hpairs (f : Bytes → Nat) (es : List (Bytes × Bytes)) : List (Nat × Nat) :=
  (tagged f es 2048).map (·.1)

/-- Bucket `b`'s pending list after all `put` calls. -/
def bkt (f : Bytes → Nat) (es : List (Bytes × Bytes)) (b : Nat) :
    List (Nat × Nat) :=
  (hpairs f es).filter (fun q => q.1 &&& 0xff == b)

/-- The header index built by `finalize`, recomputed: entry `b` is
`(base + 16 * (entries before bucket b), 2 * |bucket b|)`. -/
def idxFrom (base : Nat) : List (List (Nat × Nat)) → List (Nat × Nat)
  | [] => []
  | t :: r => (base, t.length <<< 1) :: idxFrom (base + 16 * t.length) r

/-- Offset at which bucket `b`'s secondary table is written. -/
def off (f : Bytes → Nat) (es : List (Bytes × Bytes)) (b : Nat) : Nat :=
  2048 + (dataRegion es).length +
    16 * (((List.range b).map (fun c => (bkt f es c).length)).sum)

/-- Size of the finalized image: header, record region, and 16 bytes of
table slots per record. -/
def imageSize (es : List (Bytes × Bytes)) : Nat :=
  2048 + (dataRegion es).length + 16 * es.length

/-- The slots of `slots` in probe order starting at index `hm`. -/
def pView (slots : List (Nat × Nat)) (hm : Nat) : List (Nat × Nat) :=
  (List.range slots.length).map
    (fun t => slots.getD ((hm + t) % slots.length) (0, 0))

/-- The pairs a probe scan for hash `h` keeps: walk the probe order from
`(h >> 8) mod length`, stop at the first hash-field-0 slot, keep the slots
whose hash field equals `h`. -/
def scanOf (slots : List (Nat × Nat)) (h : Nat) : List (Nat × Nat) :=
  ((pView slots ((h >>> 8) % slots.length)).takeWhile
    (fun s => !(s.1 == 0))).filter (fun s => s.1 == h)

/-- On the probe path from an occupied slot's home to the slot itself
every slot is occupied. -/
def Hole (slots : List (Nat × Nat)) : Prop :=
  ∀ hm t2, t2 < slots.length →
    hm = ((slots.getD ((hm + t2) % slots.length) (0, 0)).1 >>> 8) %
      slots.length →
    (slots.getD ((hm + t2) % slots.length) (0, 0)).1 ≠ 0 →
    ∀ t1, t1 < t2 → (slots.getD ((hm + t1) % slots.length) (0, 0)).1 ≠ 0

/-- Invariant carried while the pending pairs `ps` are placed into the
table. -/
def Inv (ps slots : List (Nat × Nat)) : Prop :=
  slots.Perm (ps ++ List.replicate (slots.length - ps.length) (0, 0)) ∧
  Hole slots ∧
  ∀ h, scanOf slots h = ps.filter (fun q => q.1 == h)

/-! ### Byte-level lemmas: encoding and decoding -/

theorem le4_length (n : Nat) : (le4 n).length = 4 := rfl

theorem write_2_le4_length (a b : Nat) : (write_2_le4 a b).length = 8 := rfl

theorem byteAt_append (xs ys : Bytes) (i : Nat) :
    byteAt (xs ++ ys) (xs.length + i) = byteAt ys i := by
  unfold byteAt
  rw [List.getD_append_right _ _ _ _ (Nat.le_add_right _ _), Nat.add_sub_cancel_left]

theorem un4_shift (xs ys : Bytes) (p : Nat) :
    un4 (xs ++ ys) (xs.length + p) = un4 ys p := by
  unfold un4
  rw [Nat.add_assoc xs.length p 1, Nat.add_assoc xs.length p 2,
    Nat.add_assoc xs.length p 3, byteAt_append, byteAt_append, byteAt_append,
    byteAt_append]

theorem read_2_le4_shift (xs ys : Bytes) (p : Nat) :
    read_2_le4 (xs ++ ys) (xs.length + p) = read_2_le4 ys p := by
  unfold read_2_le4
  rw [Nat.add_assoc xs.length p 4, un4_shift, un4_shift]

theorem un4_le4 (a : Nat) (ys : Bytes) : un4 (le4 a ++ ys) 0 = a % 4294967296 := by
  simp only [un4, le4, byteAt, List.cons_append, List.getD_cons_zero,
    List.getD_cons_succ]
  omega

theorem read_2_le4_write (a b : Nat) (ys : Bytes) :
    read_2_le4 (write_2_le4 a b ++ ys) 0 =
      (a % 4294967296, b % 4294967296) := by
  unfold read_2_le4 write_2_le4
  rw [List.append_assoc]
  simp only [Prod.mk.injEq]
  constructor
  · exact un4_le4 a (le4 b ++ ys)
  · show un4 (le4 a ++ (le4 b ++ ys)) ((le4 a).length + 0) = _
    rw [un4_shift, un4_le4]

theorem slice_shift (xs ys : Bytes) (p len : Nat) :
    slice (xs ++ ys) (xs.length + p) len = slice ys p len := by
  unfold slice
  rw [← List.drop_drop, List.drop_left]

theorem slice_self (xs ys : Bytes) : slice (xs ++ ys) 0 xs.length = xs := by
  unfold slice
  rw [List.drop_zero, List.take_left]

/-- Reading pair `j` out of a serialized pair table. -/
theorem read_tblBytes (ps : List (Nat × Nat)) (rest : Bytes) (j : Nat)
    (hj : j < ps.length) :
    read_2_le4 (tblBytes ps ++ rest) (8 * j) =
      ((ps.getD j (0, 0)).1 % 4294967296, (ps.getD j (0, 0)).2 % 4294967296) := by
  induction ps generalizing rest j with
  | nil => exact absurd hj (by simp)
  | cons p t ih =>
    have hexp : tblBytes (p :: t) ++ rest =
        write_2_le4 p.1 p.2 ++ (tblBytes t ++ rest) := by
      simp [tblBytes, List.append_assoc]
    match j with
    | 0 => rw [hexp]; exact read_2_le4_write p.1 p.2 (tblBytes t ++ rest)
    | j + 1 =>
      have hpos : 8 * (j + 1) = (write_2_le4 p.1 p.2).length + 8 * j := by
        rw [write_2_le4_length]; omega
      rw [hexp, hpos, read_2_le4_shift]
      exact ih rest j (by simpa using hj)

theorem tblBytes_length (ps : List (Nat × Nat)) :
    (tblBytes ps).length = 8 * ps.length := by
  induction ps with
  | nil => rfl
  | cons p t ih => simp [tblBytes, write_2_le4_length] at ih ⊢; omega

/-! ### Generic list helpers -/

theorem getD_map_range {α : Type} (g : Nat → α) (n b : Nat) (d : α) (hb : b < n) :
    (((List.range n).map g).getD b d) = g b := by
  rw [List.getD_eq_getElem?_getD, List.getElem?_map, List.getElem?_range hb]
  rfl

theorem set_map_range {α : Type} (g : Nat → α) (n b : Nat) (x : α) :
    ((List.range n).map g).set b x =
      (List.range n).map (fun c => if c = b then x else g c) := by
  apply List.ext_getElem
  · simp
  · intro i h1 h2
    simp only [List.length_set, List.length_map, List.length_range] at h1
    rw [List.getElem_set]
    by_cases hib : b = i
    · subst hib
      simp
    · rw [if_neg hib]
      simp only [List.getElem_map, List.getElem_range]
      rw [if_neg (fun h => hib h.symm)]

theorem getD_set_self {α : Type} (l : List α) (i : Nat) (a d : α)
    (h : i < l.length) : (l.set i a).getD i d = a := by
  rw [List.getD_eq_getElem?_getD, List.getElem?_set_self (by simpa using h)]
  rfl

theorem getD_set_ne {α : Type} (l : List α) (i j : Nat) (a d : α)
    (h : i ≠ j) : (l.set i a).getD j d = l.getD j d := by
  rw [List.getD_eq_getElem?_getD, List.getElem?_set_ne h, ← List.getD_eq_getElem?_getD]

theorem foldl_min_of_le (r : List Nat) (x : Nat) (h : ∀ y ∈ r, x ≤ y) :
    r.foldl Nat.min x = x := by
  induction r with
  | nil => rfl
  | cons y t ih =>
    have hxy : Nat.min x y = x := Nat.min_eq_left (h y (List.mem_cons_self y t))
    simp only [List.foldl_cons, hxy]
    exact ih (fun z hz => h z (List.mem_cons_of_mem y hz))

theorem listMin_map_range (k : Nat) (g : Nat → Nat) (hk : 0 < k)
    (h : ∀ b, b < k → g 0 ≤ g b) : listMin ((List.range k).map g) = g 0 := by
  cases k with
  | zero => omega
  | succ k' =>
    rw [List.range_succ_eq_map]
    simp only [List.map_cons, List.map_map]
    unfold listMin
    apply foldl_min_of_le
    intro y hy
    simp only [List.mem_map, List.mem_range, Function.comp] at hy
    obtain ⟨b, hb, rfl⟩ := hy
    exact h (b + 1) (by omega)

/-! ### The writer state after all `put` calls -/

theorem recBytes_length (e : Bytes × Bytes) :
    (recBytes e).length = 8 + e.1.length + e.2.length := by
  simp [recBytes, write_2_le4_length]
  omega

theorem dataRegion_append (l1 l2 : List (Bytes × Bytes)) :
    dataRegion (l1 ++ l2) = dataRegion l1 ++ dataRegion l2 := by
  simp [dataRegion]

theorem dataRegion_cons (e : Bytes × Bytes) (t : List (Bytes × Bytes)) :
    dataRegion (e :: t) = recBytes e ++ dataRegion t := by
  simp [dataRegion]

theorem tagged_append (f : Bytes → Nat) (l1 l2 : List (Bytes × Bytes)) (pos : Nat) :
    tagged f (l1 ++ l2) pos =
      tagged f l1 pos ++ tagged f l2 (pos + (dataRegion l1).length) := by
  induction l1 generalizing pos with
  | nil => simp [tagged, dataRegion]
  | cons e t ih =>
    simp only [List.cons_append, tagged, List.append_eq]
    rw [ih, dataRegion_cons]
    simp [Nat.add_assoc]

theorem hpairs_snoc (f : Bytes → Nat) (es : List (Bytes × Bytes)) (e : Bytes × Bytes) :
    hpairs f (es ++ [e]) =
      hpairs f es ++ [(f e.1, 2048 + (dataRegion es).length)] := by
  unfold hpairs
  rw [tagged_append]
  simp [tagged]

theorem bkt_snoc (f : Bytes → Nat) (es : List (Bytes × Bytes)) (e : Bytes × Bytes)
    (b : Nat) :
    bkt f (es ++ [e]) b =
      bkt f es b ++ (if f e.1 &&& 0xff = b then
        [(f e.1, 2048 + (dataRegion es).length)] else []) := by
  unfold bkt
  rw [hpairs_snoc, List.filter_append]
  congr 1
  by_cases h : f e.1 &&& 0xff = b
  · simp [List.filter_cons, h]
  · simp [List.filter_cons, h]

/-- The fold of `put` over the entries: the body is the record region and
bucket `b` holds exactly the pending pairs of `bkt`. -/
theorem putAll_eq (f : Bytes → Nat) (es : List (Bytes × Bytes)) :
    es.foldl (fun w e => put f w e.1 e.2) Writer.init =
      ⟨dataRegion es, (List.range 256).map (fun b => bkt f es b)⟩ := by
  induction es using List.reverseRecOn with
  | nil =>
    show Writer.init = _
    unfold Writer.init
    rw [Writer.mk.injEq]
    refine ⟨rfl, ?_⟩
    apply List.ext_getElem
    · simp
    · intro i h1 h2
      rw [List.getElem_replicate, List.getElem_map, List.getElem_range]
      rfl
  | append_singleton es e ih =>
    rw [List.foldl_append, ih, List.foldl_cons, List.foldl_nil]
    unfold put
    have hblt : f e.1 &&& 0xff < 256 := by
      have := Nat.and_le_right (n := f e.1) (m := 0xff)
      omega
    rw [Writer.mk.injEq]
    constructor
    · rw [dataRegion_append]
      have h1 : dataRegion [e] = recBytes e := by
        simp [dataRegion]
      rw [h1, recBytes, ← List.append_assoc, ← List.append_assoc]
    · rw [getD_map_range _ _ _ _ hblt, set_map_range]
      apply List.ext_getElem
      · simp
      · intro i h1 h2
        simp only [List.length_map, List.length_range] at h1
        simp only [List.getElem_map, List.getElem_range]
        rw [bkt_snoc]
        by_cases hib : i = f e.1 &&& 0xff
        · rw [if_pos hib, if_pos hib.symm, hib]
        · rw [if_neg hib, if_neg (fun h => hib h.symm), List.append_nil]

/-! ### The finalize layout -/

theorem placePair_length (ordered : List (Nat × Nat)) (p : Nat × Nat) :
    (placePair ordered p).length = ordered.length := by
  unfold placePair
  dsimp only
  split
  · simp
  · rfl

theorem foldl_placePair_length (l : List (Nat × Nat)) (init : List (Nat × Nat)) :
    (l.foldl placePair init).length = init.length := by
  induction l generalizing init with
  | nil => rfl
  | cons p t ih => rw [List.foldl_cons, ih, placePair_length]

theorem buildTable_length (tbl : List (Nat × Nat)) :
    (buildTable tbl).length = tbl.length <<< 1 := by
  unfold buildTable
  rw [foldl_placePair_length]
  simp

theorem tblBytes_buildTable_length (t : List (Nat × Nat)) :
    (tblBytes (buildTable t)).length = 16 * t.length := by
  rw [tblBytes_length, buildTable_length, Nat.shiftLeft_eq]
  ring

/-- The `finalize` fold with a general accumulator. -/
theorem finalize_foldl (tbls : List (List (Nat × Nat))) (body0 : Bytes)
    (idx0 : List (Nat × Nat)) :
    tbls.foldl
      (fun acc tbl => (acc.1 ++ tblBytes (buildTable tbl),
        acc.2 ++ [(2048 + acc.1.length, tbl.length <<< 1)]))
      (body0, idx0) =
      (body0 ++ (tbls.map (fun t => tblBytes (buildTable t))).flatten,
       idx0 ++ idxFrom (2048 + body0.length) tbls) := by
  induction tbls generalizing body0 idx0 with
  | nil => simp [idxFrom]
  | cons t r ih =>
    rw [List.foldl_cons, ih]
    simp only [Prod.mk.injEq]
    constructor
    · simp [List.append_assoc]
    · rw [idxFrom]
      have hlen : (body0 ++ tblBytes (buildTable t)).length =
          body0.length + 16 * t.length := by
        rw [List.length_append, tblBytes_buildTable_length]
      rw [hlen, List.append_assoc]
      have hbase : 2048 + (body0.length + 16 * t.length) =
          2048 + body0.length + 16 * t.length := by omega
      rw [hbase]
      rfl

theorem finalize_eq (w : Writer) :
    finalize w =
      tblBytes (idxFrom (2048 + w.body.length) w.unordered) ++ w.body ++
        (w.unordered.map (fun t => tblBytes (buildTable t))).flatten := by
  unfold finalize
  dsimp only
  rw [finalize_foldl]
  simp [List.append_assoc]

/-- The complete layout of the image: header, record region, tables. -/
theorem image_eq (f : Bytes → Nat) (es : List (Bytes × Bytes)) :
    image f es =
      tblBytes (idxFrom (2048 + (dataRegion es).length)
        ((List.range 256).map (fun b => bkt f es b))) ++ dataRegion es ++
      (((List.range 256).map (fun b => bkt f es b)).map
        (fun t => tblBytes (buildTable t))).flatten := by
  unfold image
  rw [putAll_eq, finalize_eq]

theorem idxFrom_length (base : Nat) (tbls : List (List (Nat × Nat))) :
    (idxFrom base tbls).length = tbls.length := by
  induction tbls generalizing base with
  | nil => rfl
  | cons t r ih => rw [idxFrom]; simp [ih]

theorem idxFrom_getD (base : Nat) (tbls : List (List (Nat × Nat))) (j : Nat)
    (hj : j < tbls.length) :
    (idxFrom base tbls).getD j (0, 0) =
      (base + 16 * (((tbls.take j).map List.length).sum),
        (tbls.getD j []).length <<< 1) := by
  induction tbls generalizing base j with
  | nil => exact absurd hj (by simp)
  | cons t r ih =>
    match j with
    | 0 => simp [idxFrom]
    | j + 1 =>
      rw [idxFrom, List.getD_cons_succ, List.getD_cons_succ,
        ih (base + 16 * t.length) j (by simpa using hj), List.take_succ_cons]
      simp only [List.map_cons, List.sum_cons, Prod.mk.injEq]
      exact ⟨by omega, trivial⟩

theorem header_length (f : Bytes → Nat) (es : List (Bytes × Bytes)) :
    (tblBytes (idxFrom (2048 + (dataRegion es).length)
      ((List.range 256).map (fun b => bkt f es b)))).length = 2048 := by
  rw [tblBytes_length, idxFrom_length]
  simp

/-- Reading header entry `b` of the image (values reduced mod 2^32 by the
4-byte encoding). -/
theorem read_header (f : Bytes → Nat) (es : List (Bytes × Bytes)) (b : Nat)
    (hb : b < 256) :
    read_2_le4 (image f es) (8 * b) =
      ((off f es b) % 4294967296, (2 * (bkt f es b).length) % 4294967296) := by
  rw [image_eq, List.append_assoc, read_tblBytes _ _ b
    (by rw [idxFrom_length]; simpa using hb)]
  rw [idxFrom_getD _ _ b (by simpa using hb)]
  have h1 : (((((List.range 256).map (fun b => bkt f es b)).take b).map
      List.length).sum) = ((List.range b).map (fun c => (bkt f es c).length)).sum := by
    rw [← List.map_take, List.take_range]
    have hmin : min b 256 = b := by omega
    rw [hmin, List.map_map]
    rfl
  have h2 : (((List.range 256).map (fun b => bkt f es b)).getD b []).length =
      (bkt f es b).length := by
    rw [getD_map_range _ _ _ _ hb]
  rw [h1, h2, Nat.shiftLeft_eq]
  have h3 : (bkt f es b).length * 2 ^ 1 = 2 * (bkt f es b).length := by ring
  rw [h3]
  rfl

/-! ### Bucket counting -/

theorem sum_map_add {α : Type} (l : List α) (g1 g2 : α → Nat) :
    (l.map (fun x => g1 x + g2 x)).sum = (l.map g1).sum + (l.map g2).sum := by
  induction l with
  | nil => rfl
  | cons x t ih => simp only [List.map_cons, List.sum_cons, ih]; omega

theorem sum_ite_count (v k : Nat) :
    ((List.range k).map (fun b => if v = b then (1 : Nat) else 0)).sum =
      if v < k then 1 else 0 := by
  induction k with
  | zero => simp
  | succ k ih =>
    rw [List.range_succ, List.map_append, List.sum_append, ih]
    by_cases h : v = k
    · subst h
      rw [if_neg (by omega), if_pos (by omega)]
      simp
    · by_cases h2 : v < k
      · rw [if_pos h2, if_pos (by omega)]
        simp [h]
      · rw [if_neg h2, if_neg (by omega)]
        simp [h]

theorem bucket_partition {α : Type} (g : α → Nat) (l : List α) (k : Nat)
    (hg : ∀ x ∈ l, g x < k) :
    ((List.range k).map (fun b => (l.filter (fun x => g x == b)).length)).sum =
      l.length := by
  induction l with
  | nil => simp
  | cons x t ih =>
    have hstep : ∀ b, ((x :: t).filter (fun y => g y == b)).length =
        (if g x = b then (1 : Nat) else 0) + (t.filter (fun y => g y == b)).length := by
      intro b
      by_cases h : g x = b
      · simp [List.filter_cons, h]
        omega
      · simp [List.filter_cons, h]
    rw [List.map_congr_left (fun b _ => hstep b), sum_map_add, sum_ite_count,
      if_pos (hg x (List.mem_cons_self x t)),
      ih (fun y hy => hg y (List.mem_cons_of_mem x hy))]
    simp [Nat.add_comm]

theorem tagged_filter_length (f : Bytes → Nat) (pr : Nat → Bool)
    (l : List (Bytes × Bytes)) (pos : Nat) :
    ((tagged f l pos).filter (fun x => pr x.1.1)).length =
      (l.filter (fun e => pr (f e.1))).length := by
  induction l generalizing pos with
  | nil => rfl
  | cons e t ih =>
    by_cases h : pr (f e.1) <;>
      simp [tagged, List.filter_cons, h, ih]

theorem bkt_length_eq (f : Bytes → Nat) (es : List (Bytes × Bytes)) (b : Nat) :
    (bkt f es b).length = (es.filter (fun e => f e.1 &&& 0xff == b)).length := by
  show (((tagged f es 2048).map (·.1)).filter (fun q => q.1 &&& 0xff == b)).length = _
  rw [List.filter_map, List.length_map]
  exact tagged_filter_length f (fun h => h &&& 0xff == b) es 2048

theorem bkt_total (f : Bytes → Nat) (es : List (Bytes × Bytes)) :
    ((List.range 256).map (fun b => (bkt f es b).length)).sum = es.length := by
  have hg : ∀ e ∈ es, (fun e => f e.1 &&& 0xff) e < 256 := by
    intro e _
    show f e.1 &&& 0xff < 256
    have := Nat.and_le_right (n := f e.1) (m := 0xff)
    omega
  have h := bucket_partition (fun e => f e.1 &&& 0xff) es 256 hg
  have h2 : ((List.range 256).map (fun b => (bkt f es b).length)).sum =
      ((List.range 256).map
        (fun b => (es.filter (fun e => f e.1 &&& 0xff == b)).length)).sum :=
    congrArg List.sum (List.map_congr_left (fun b _ => bkt_length_eq f es b))
  rw [h2]
  exact h

theorem bkt_partial_le (f : Bytes → Nat) (es : List (Bytes × Bytes)) (b : Nat)
    (hb : b ≤ 256) :
    ((List.range b).map (fun c => (bkt f es c).length)).sum ≤ es.length := by
  have hsplit : List.range 256 = List.range b ++ (List.range (256 - b)).map (b + ·) := by
    rw [← List.range_add]
    congr 1
    omega
  have h := bkt_total f es
  rw [hsplit, List.map_append, List.sum_append] at h
  omega

theorem off_le_imageSize (f : Bytes → Nat) (es : List (Bytes × Bytes)) (b : Nat)
    (hb : b ≤ 256) : off f es b ≤ imageSize es := by
  unfold off imageSize
  have h := bkt_partial_le f es b hb
  omega

/-- `table_start` of a built image is the end of the record region. -/
theorem table_start_image (f : Bytes → Nat) (es : List (Bytes × Bytes))
    (hsz : imageSize es < 4294967296) :
    table_start (image f es) = 2048 + (dataRegion es).length := by
  unfold table_start
  have hread : ∀ b ∈ List.range 256,
      (fun i => (read_2_le4 (image f es) (8 * i)).1) b = off f es b := by
    intro b hb
    have hblt : b < 256 := List.mem_range.mp hb
    show (read_2_le4 (image f es) (8 * b)).1 = off f es b
    rw [read_header f es b hblt]
    exact Nat.mod_eq_of_lt
      (lt_of_le_of_lt (off_le_imageSize f es b (by omega)) hsz)
  rw [List.map_congr_left hread]
  rw [listMin_map_range 256 (off f es) (by norm_num)
    (fun b _ => by unfold off; simp)]
  unfold off
  simp

/-! ### Record region reads -/

theorem read_2_le4_at (xs ys : Bytes) :
    read_2_le4 (xs ++ ys) xs.length = read_2_le4 ys 0 := by
  have h := read_2_le4_shift xs ys 0
  rwa [Nat.add_zero] at h

theorem slice_start (xs ys : Bytes) (len : Nat) :
    slice (xs ++ ys) xs.length len = ys.take len := by
  have h := slice_shift xs ys 0 len
  rw [Nat.add_zero] at h
  rw [h]
  unfold slice
  rw [List.drop_zero]

/-- Decoding the three parts of the record for entry `e` stored at offset
`pre.length`. -/
theorem record_reads (e : Bytes × Bytes) (pre R : Bytes)
    (hk : e.1.length < 4294967296) (hv : e.2.length < 4294967296) :
    read_2_le4 (pre ++ (recBytes e ++ R)) pre.length = (e.1.length, e.2.length) ∧
    slice (pre ++ (recBytes e ++ R)) (pre.length + 8) e.1.length = e.1 ∧
    slice (pre ++ (recBytes e ++ R)) (pre.length + 8 + e.1.length) e.2.length =
      e.2 := by
  refine ⟨?_, ?_, ?_⟩
  · have hshape : recBytes e ++ R =
        write_2_le4 e.1.length e.2.length ++ (e.1 ++ (e.2 ++ R)) := by
      simp [recBytes, List.append_assoc]
    rw [hshape, read_2_le4_at, read_2_le4_write, Nat.mod_eq_of_lt hk,
      Nat.mod_eq_of_lt hv]
  · rw [slice_shift]
    have hshape : recBytes e ++ R =
        write_2_le4 e.1.length e.2.length ++ (e.1 ++ (e.2 ++ R)) := by
      simp [recBytes, List.append_assoc]
    rw [hshape,
      show (8 : Nat) = (write_2_le4 e.1.length e.2.length).length from rfl,
      slice_start, List.take_left]
  · have hassoc : pre.length + 8 + e.1.length = pre.length + (8 + e.1.length) := by
      omega
    rw [hassoc, slice_shift]
    have hshape : recBytes e ++ R =
        (write_2_le4 e.1.length e.2.length ++ e.1) ++ (e.2 ++ R) := by
      simp [recBytes, List.append_assoc]
    have hlen : (write_2_le4 e.1.length e.2.length ++ e.1).length =
        8 + e.1.length := by
      rw [List.length_append, write_2_le4_length]
    rw [hshape, ← hlen, slice_start, List.take_left]

theorem tagged_fst_hash (f : Bytes → Nat) (l : List (Bytes × Bytes)) (pos : Nat) :
    ∀ x ∈ tagged f l pos, x.1.1 = f x.2.1 := by
  induction l generalizing pos with
  | nil => intro x hx; cases hx
  | cons e t ih =>
    intro x hx
    rcases List.mem_cons.mp hx with rfl | hx'
    · rfl
    · exact ih _ x hx'

theorem tagged_pos_bound (f : Bytes → Nat) (l : List (Bytes × Bytes)) (pos : Nat) :
    ∀ x ∈ tagged f l pos, pos ≤ x.1.2 ∧ x.1.2 + 8 ≤ pos + (dataRegion l).length := by
  induction l generalizing pos with
  | nil => intro x hx; cases hx
  | cons e t ih =>
    intro x hx
    have hrb := recBytes_length e
    have hDc : (dataRegion (e :: t)).length =
        (recBytes e).length + (dataRegion t).length := by
      rw [dataRegion_cons, List.length_append]
    rcases List.mem_cons.mp hx with rfl | hx'
    · refine ⟨Nat.le_refl _, ?_⟩
      show pos + 8 ≤ pos + (dataRegion (e :: t)).length
      omega
    · have h := ih (pos + (recBytes e).length) x hx'
      exact ⟨by omega, by omega⟩

theorem tagged_entry_mem (f : Bytes → Nat) (l : List (Bytes × Bytes)) (pos : Nat) :
    ∀ x ∈ tagged f l pos, x.2 ∈ l := by
  induction l generalizing pos with
  | nil => intro x hx; cases hx
  | cons e t ih =>
    intro x hx
    rcases List.mem_cons.mp hx with rfl | hx'
    · exact List.mem_cons_self _ _
    · exact List.mem_cons_of_mem _ (ih _ x hx')

/-- `_get_value` decodes the record of entry `x` and compares its key. -/
theorem tagged_get_value (f : Bytes → Nat) (key : Bytes)
    (l : List (Bytes × Bytes)) (pre rest : Bytes)
    (hb : ∀ e ∈ l, e.1.length < 4294967296 ∧ e.2.length < 4294967296) :
    ∀ x ∈ tagged f l pre.length,
      _get_value (pre ++ dataRegion l ++ rest) x.1.2 key =
        (if x.2.1 = key then some x.2.2 else none) := by
  induction l generalizing pre with
  | nil => intro x hx; cases hx
  | cons e t ih =>
    intro x hx
    have hD : pre ++ dataRegion (e :: t) ++ rest =
        pre ++ (recBytes e ++ (dataRegion t ++ rest)) := by
      rw [dataRegion_cons]
      simp [List.append_assoc]
    rcases List.mem_cons.mp hx with rfl | hx'
    · have hbe := hb e (List.mem_cons_self e t)
      obtain ⟨hr, hkey, hval⟩ := record_reads e pre (dataRegion t ++ rest)
        hbe.1 hbe.2
      unfold _get_value
      rw [hD]
      dsimp only
      rw [hr]
      dsimp only
      rw [hkey]
      by_cases hkq : e.1 = key
      · rw [if_pos hkq, if_pos hkq, hval]
      · rw [if_neg hkq, if_neg hkq]
    · have hx2 : x ∈ tagged f t (pre ++ recBytes e).length := by
        rw [List.length_append]
        exact hx'
      have h := ih (pre ++ recBytes e)
        (fun e' he' => hb e' (List.mem_cons_of_mem _ he')) x hx2
      have hshape : pre ++ recBytes e ++ dataRegion t ++ rest =
          pre ++ dataRegion (e :: t) ++ rest := by
        rw [dataRegion_cons]
        simp [List.append_assoc]
      rwa [hshape] at h

/-! ### Sequential enumeration -/

theorem entry_bounds (es : List (Bytes × Bytes))
    (hsz : imageSize es < 4294967296) :
    ∀ e ∈ es, e.1.length < 4294967296 ∧ e.2.length < 4294967296 := by
  intro e he
  have h1 : (recBytes e).length ≤ (dataRegion es).length := by
    have hm : (recBytes e).length ∈ (es.map recBytes).map List.length :=
      List.mem_map_of_mem _ (List.mem_map_of_mem _ he)
    have := List.le_sum_of_mem hm
    unfold dataRegion
    rw [List.length_flatten]
    exact this
  have h2 := recBytes_length e
  unfold imageSize at hsz
  omega

theorem iterAux_decode (l : List (Bytes × Bytes)) (pre rest : Bytes)
    (hb : ∀ e ∈ l, e.1.length < 4294967296 ∧ e.2.length < 4294967296) :
    iterAux (pre ++ dataRegion l ++ rest) (pre.length + (dataRegion l).length)
      pre.length = l := by
  induction l generalizing pre with
  | nil =>
    rw [iterAux]
    simp [dataRegion]
  | cons e t ih =>
    have hbe := hb e (List.mem_cons_self e t)
    have hrb := recBytes_length e
    have hDc : (dataRegion (e :: t)).length =
        (recBytes e).length + (dataRegion t).length := by
      rw [dataRegion_cons, List.length_append]
    have hD : pre ++ dataRegion (e :: t) ++ rest =
        pre ++ (recBytes e ++ (dataRegion t ++ rest)) := by
      rw [dataRegion_cons]
      simp [List.append_assoc]
    obtain ⟨hr, hkey, hval⟩ := record_reads e pre (dataRegion t ++ rest)
      hbe.1 hbe.2
    rw [iterAux, dif_pos (by omega)]
    dsimp only
    rw [hD, hr]
    dsimp only
    rw [hkey, hval]
    have hpos : pre.length + 8 + e.1.length + e.2.length =
        (pre ++ recBytes e).length := by
      rw [List.length_append]
      omega
    have hts : pre.length + (dataRegion (e :: t)).length =
        (pre ++ recBytes e).length + (dataRegion t).length := by
      rw [List.length_append]
      omega
    have hdata : pre ++ (recBytes e ++ (dataRegion t ++ rest)) =
        pre ++ recBytes e ++ dataRegion t ++ rest := by
      simp [List.append_assoc]
    rw [hpos, hts, hdata,
      ih (pre ++ recBytes e) (fun e' he' => hb e' (List.mem_cons_of_mem _ he'))]

/-- `iteritems` on a built image returns exactly the entries written. -/
theorem iteritems_image (f : Bytes → Nat) (es : List (Bytes × Bytes))
    (hsz : imageSize es < 4294967296) :
    iteritems (image f es) = es := by
  unfold iteritems
  rw [table_start_image f es hsz, image_eq]
  have h := iterAux_decode es
    (tblBytes (idxFrom (2048 + (dataRegion es).length)
      ((List.range 256).map (fun b => bkt f es b))))
    ((((List.range 256).map (fun b => bkt f es b)).map
      (fun t => tblBytes (buildTable t))).flatten)
    (entry_bounds es hsz)
  rwa [header_length] at h

/-! ### Secondary table reads -/

theorem sum_map_mul_left {α : Type} (l : List α) (c : Nat) (g : α → Nat) :
    (l.map (fun x => c * g x)).sum = c * (l.map g).sum := by
  induction l with
  | nil => simp
  | cons x t ih =>
    simp only [List.map_cons, List.sum_cons, ih]
    ring

theorem flatten_map_range_split (g : Nat → Bytes) (k b : Nat) (hb : b < k) :
    ∃ rest : Bytes, ((List.range k).map g).flatten =
      ((List.range b).map g).flatten ++ (g b ++ rest) := by
  have h1 : List.range k = (List.range b ++ [b]) ++
      (List.range (k - b - 1)).map (b + 1 + ·) := by
    have h2 : List.range (b + 1) = List.range b ++ [b] := List.range_succ b
    rw [← h2, ← List.range_add]
    congr 1
    omega
  refine ⟨((List.range (k - b - 1)).map (b + 1 + ·)).map g |>.flatten, ?_⟩
  rw [h1]
  simp [List.append_assoc]

theorem getD_eq_getElem {α : Type} (l : List α) (j : Nat) (d : α)
    (hj : j < l.length) : l.getD j d = l[j] := by
  rw [List.getD_eq_getElem?_getD, List.getElem?_eq_getElem hj]
  rfl

theorem getD_mem {α : Type} (l : List α) (j : Nat) (d : α) (hj : j < l.length) :
    l.getD j d ∈ l := by
  rw [getD_eq_getElem l j d hj]
  exact List.getElem_mem hj

theorem foldl_placePair_mem (l : List (Nat × Nat)) (init : List (Nat × Nat)) :
    ∀ x ∈ l.foldl placePair init, x ∈ init ∨ x ∈ l := by
  induction l generalizing init with
  | nil => intro x hx; exact Or.inl hx
  | cons p t ih =>
    intro x hx
    rw [List.foldl_cons] at hx
    rcases ih (placePair init p) x hx with hin | hin
    · unfold placePair at hin
      dsimp only at hin
      rcases hsplit : (List.range init.length).find?
          (fun j => (init.getD ((p.1 >>> 8 % init.length + j) % init.length)
            (0, 0)).1 == 0) with _ | j
      · rw [hsplit] at hin
        exact Or.inl hin
      · rw [hsplit] at hin
        rcases List.mem_or_eq_of_mem_set hin with h2 | h2
        · exact Or.inl h2
        · exact Or.inr (h2 ▸ List.mem_cons_self p t)
    · exact Or.inr (List.mem_cons_of_mem p hin)

/-- Every slot of a built table is the empty sentinel or a pending pair. -/
theorem buildTable_mem (tbl : List (Nat × Nat)) :
    ∀ x ∈ buildTable tbl, x = (0, 0) ∨ x ∈ tbl := by
  intro x hx
  rcases foldl_placePair_mem tbl _ x hx with hin | hin
  · exact Or.inl (List.eq_of_mem_replicate hin)
  · exact Or.inr hin

/-- Reading slot `j` of bucket `b`'s table out of the image. -/
theorem read_table_slot (f : Bytes → Nat) (es : List (Bytes × Bytes)) (b : Nat)
    (hb : b < 256) (j : Nat) (hj : j < (buildTable (bkt f es b)).length) :
    read_2_le4 (image f es) (off f es b + 8 * j) =
      (((buildTable (bkt f es b)).getD j (0, 0)).1 % 4294967296,
       ((buildTable (bkt f es b)).getD j (0, 0)).2 % 4294967296) := by
  rw [image_eq]
  have hmm : (((List.range 256).map (fun b => bkt f es b)).map
      (fun t => tblBytes (buildTable t))) =
      (List.range 256).map (fun c => tblBytes (buildTable (bkt f es c))) := by
    rw [List.map_map]
    rfl
  obtain ⟨rest, hsplit⟩ := flatten_map_range_split
    (fun c => tblBytes (buildTable (bkt f es c))) 256 b hb
  rw [hmm, hsplit]
  have hplen : (((List.range b).map
      (fun c => tblBytes (buildTable (bkt f es c)))).flatten).length =
      16 * ((List.range b).map (fun c => (bkt f es c).length)).sum := by
    rw [List.length_flatten, List.map_map]
    have hcong : ∀ c ∈ List.range b,
        (List.length ∘ fun c => tblBytes (buildTable (bkt f es c))) c =
          (fun c => 16 * (bkt f es c).length) c := by
      intro c _
      show (tblBytes (buildTable (bkt f es c))).length = _
      rw [tblBytes_buildTable_length]
    rw [List.map_congr_left hcong, sum_map_mul_left]
  have hshape : ∀ (H D P X : Bytes), H ++ D ++ (P ++ X) = (H ++ D ++ P) ++ X := by
    intro H D P X
    simp [List.append_assoc]
  rw [hshape]
  have hlen : ((tblBytes (idxFrom (2048 + (dataRegion es).length)
      ((List.range 256).map (fun b => bkt f es b))) ++ dataRegion es) ++
      ((List.range b).map (fun c => tblBytes (buildTable (bkt f es c)))).flatten).length
      = off f es b := by
    rw [List.length_append, List.length_append, header_length, hplen]
    unfold off
    omega
  rw [← hlen, Nat.add_comm (tblBytes _ ++ _ ++ _).length (8 * j),
    Nat.add_comm (8 * j) (tblBytes _ ++ _ ++ _).length]
  rw [read_2_le4_shift]
  exact read_tblBytes _ rest j hj

/-! ### Abstract analysis of the open-addressed secondary table -/

theorem mod_add_cancel (n hm t s : Nat) (ht : t < n) (hs : s < n)
    (h : (hm + t) % n = (hm + s) % n) : t = s := by
  have h2 : t ≡ s [MOD n] := Nat.ModEq.add_left_cancel' hm h
  unfold Nat.ModEq at h2
  rwa [Nat.mod_eq_of_lt ht, Nat.mod_eq_of_lt hs] at h2

theorem pslot_pidx (n hm j : Nat) (hm_lt : hm < n) (hj : j < n) :
    (hm + (j + n - hm) % n) % n = j := by
  rw [Nat.add_mod_mod]
  have h1 : hm + (j + n - hm) = j + n := by omega
  rw [h1, Nat.add_mod_right, Nat.mod_eq_of_lt hj]

theorem pidx_pslot (n hm t : Nat) (hm_lt : hm < n) (ht : t < n) :
    ((hm + t) % n + n - hm) % n = t := by
  have h0 : (hm + t) % n + n - hm = (hm + t) % n + (n - hm) := by omega
  rw [h0, Nat.mod_add_mod]
  have h1 : hm + t + (n - hm) = t + n := by omega
  rw [h1, Nat.add_mod_right, Nat.mod_eq_of_lt ht]

theorem pView_length (slots : List (Nat × Nat)) (hm : Nat) :
    (pView slots hm).length = slots.length := by
  simp [pView]

theorem pView_getD (slots : List (Nat × Nat)) (hm t : Nat)
    (ht : t < slots.length) :
    (pView slots hm).getD t (0, 0) =
      slots.getD ((hm + t) % slots.length) (0, 0) := by
  unfold pView
  rw [getD_map_range _ _ _ _ ht]

theorem getD_replicate {α : Type} (n j : Nat) (d x : α) :
    (List.replicate n x).getD j d = if j < n then x else d := by
  by_cases h : j < n
  · rw [if_pos h, getD_eq_getElem _ _ _ (by simpa using h),
      List.getElem_replicate]
  · rw [if_neg h, List.getD_eq_getElem?_getD, List.getElem?_eq_none
      (by simpa using Nat.le_of_not_lt h)]
    rfl

theorem pView_set (slots : List (Nat × Nat)) (hm j : Nat) (p : Nat × Nat)
    (hm_lt : hm < slots.length) (hj : j < slots.length) :
    pView (slots.set j p) hm =
      (pView slots hm).set ((j + slots.length - hm) % slots.length) p := by
  have hn : 0 < slots.length := by omega
  apply List.ext_getElem
  · simp [pView]
  · intro t h1 h2
    have htn : t < slots.length := by
      simpa [pView] using h1
    rw [List.getElem_set]
    have hLHS : (pView (slots.set j p) hm)[t] =
        (slots.set j p).getD ((hm + t) % slots.length) (0, 0) := by
      unfold pView
      simp only [List.length_set, List.getElem_map, List.getElem_range]
    rw [hLHS]
    by_cases hT : (j + slots.length - hm) % slots.length = t
    · rw [if_pos hT]
      have hidx : (hm + t) % slots.length = j := by
        rw [← hT]
        exact pslot_pidx slots.length hm j hm_lt hj
      rw [hidx]
      exact getD_set_self _ _ _ _ hj
    · rw [if_neg hT]
      have hidx : (hm + t) % slots.length ≠ j := by
        intro hc
        apply hT
        rw [← hc]
        exact pidx_pslot slots.length hm t hm_lt htn
      rw [getD_set_ne _ _ _ _ _ (fun hc => hidx hc.symm)]
      unfold pView
      simp only [List.getElem_map, List.getElem_range]

/-! ### takeWhile and find? helpers -/

theorem takeWhile_getD {α : Type} (l : List α) (pr : α → Bool) (t : Nat) (d : α)
    (ht : t < (l.takeWhile pr).length) :
    (l.takeWhile pr).getD t d = l.getD t d ∧ pr (l.getD t d) = true := by
  induction l generalizing t with
  | nil => simp at ht
  | cons x xs ih =>
    cases hpx : pr x with
    | false =>
      rw [List.takeWhile_cons_of_neg (by simp [hpx])] at ht
      simp at ht
    | true =>
      rw [List.takeWhile_cons_of_pos hpx] at ht ⊢
      match t with
      | 0 => exact ⟨rfl, by simpa using hpx⟩
      | t + 1 =>
        simp only [List.getD_cons_succ]
        exact ih t (by simpa using ht)

theorem takeWhile_break {α : Type} (l : List α) (pr : α → Bool) (d : α)
    (hlt : (l.takeWhile pr).length < l.length) :
    pr (l.getD (l.takeWhile pr).length d) = false := by
  induction l with
  | nil => simp at hlt
  | cons x xs ih =>
    cases hpx : pr x with
    | false =>
      rw [List.takeWhile_cons_of_neg (by simp [hpx])]
      simpa using hpx
    | true =>
      rw [List.takeWhile_cons_of_pos hpx] at hlt ⊢
      simp only [List.length_cons, List.getD_cons_succ] at hlt ⊢
      exact ih (by omega)

theorem takeWhile_eq_nil {α : Type} (l : List α) (pr : α → Bool)
    (h : ∀ x ∈ l, pr x = false) : l.takeWhile pr = [] := by
  cases l with
  | nil => rfl
  | cons x xs =>
    rw [List.takeWhile_cons, h x (List.mem_cons_self x xs)]
    simp

theorem dropWhile_head_false {α : Type} (l : List α) (pr : α → Bool) (z : α)
    (B : List α) (h : l.dropWhile pr = z :: B) : pr z = false := by
  induction l with
  | nil => simp at h
  | cons x xs ih =>
    rw [List.dropWhile_cons] at h
    cases hpx : pr x with
    | false =>
      rw [hpx] at h
      simp only [Bool.false_eq_true, if_false] at h
      cases h
      exact hpx
    | true =>
      rw [hpx] at h
      simp only [if_true] at h
      exact ih h

theorem find?_range_spec (n Z : Nat) (pr : Nat → Bool)
    (h : (List.range n).find? pr = some Z) :
    pr Z = true ∧ Z < n ∧ ∀ t, t < Z → pr t = false := by
  rcases List.find?_eq_some.mp h with ⟨hp, as, bs, hdec, hall⟩
  have hlen : n = as.length + (bs.length + 1) := by
    have h1 := congrArg List.length hdec
    simpa using h1
  have hZ : Z = as.length := by
    have h1 : (List.range n)[as.length]? = some Z := by
      rw [hdec, List.getElem?_append_right (Nat.le_refl _)]
      simp
    rw [List.getElem?_range (by omega)] at h1
    exact (Option.some.inj h1).symm
  refine ⟨hp, by omega, ?_⟩
  intro t ht
  have h2 : (List.range n)[t]? = some t := List.getElem?_range (by omega)
  rw [hdec, List.getElem?_append_left (by omega)] at h2
  have h3 : t ∈ as := List.getElem?_mem h2
  have h4 := hall t h3
  simpa using h4

theorem find?_range_isSome (n : Nat) (pr : Nat → Bool) (j : Nat) (hj : j < n)
    (hp : pr j = true) : ∃ Z, (List.range n).find? pr = some Z := by
  have h1 : ((List.range n).find? pr).isSome := by
    rw [List.find?_isSome]
    exact ⟨j, List.mem_range.mpr hj, hp⟩
  exact Option.isSome_iff_exists.mp h1

theorem placePair_eq_set (slots : List (Nat × Nat)) (p : Nat × Nat) (Z : Nat)
    (hfind : (List.range slots.length).find?
      (fun j => (slots.getD (((p.1 >>> 8) % slots.length + j) % slots.length)
        (0, 0)).1 == 0) = some Z) :
    placePair slots p =
      slots.set (((p.1 >>> 8) % slots.length + Z) % slots.length) p := by
  unfold placePair
  dsimp only
  rw [hfind]

theorem Inv_nil (n : Nat) : Inv [] (List.replicate n (0, 0)) := by
  refine ⟨by simp, ?_, ?_⟩
  · intro hm t2 ht2 hhm hnz t1 ht1
    exfalso
    apply hnz
    rw [getD_replicate]
    by_cases h : (hm + t2) % (List.replicate n ((0 : Nat), (0 : Nat))).length <
      n <;> simp [h]
  · intro h
    unfold scanOf
    have htw : (pView (List.replicate n ((0 : Nat), (0 : Nat)))
        ((h >>> 8) % (List.replicate n ((0 : Nat), (0 : Nat))).length)).takeWhile
        (fun s => !(s.1 == 0)) = [] := by
      apply takeWhile_eq_nil
      intro x hx
      unfold pView at hx
      rcases List.mem_map.mp hx with ⟨t, _, rfl⟩
      rw [getD_replicate]
      by_cases h2 : (((h >>> 8) % (List.replicate n ((0 : Nat), (0 : Nat))).length
        + t) % (List.replicate n ((0 : Nat), (0 : Nat))).length) < n <;> simp [h2]
    rw [htw]

theorem mem_takeWhile_pred {α : Type} (l : List α) (pr : α → Bool) (x : α)
    (hx : x ∈ l.takeWhile pr) : pr x = true := by
  induction l with
  | nil => simp at hx
  | cons y ys ih =>
    cases hpy : pr y with
    | false =>
      rw [List.takeWhile_cons_of_neg (by simp [hpy])] at hx
      simp at hx
    | true =>
      rw [List.takeWhile_cons_of_pos hpy] at hx
      rcases List.mem_cons.mp hx with rfl | hx'
      · exact hpy
      · exact ih hx'

/-- Setting the slot right at the break point of a takeWhile scan. -/
theorem takeWhile_set_break {α : Type} (V : List α) (pr : α → Bool) (x : α)
    (T : Nat) (hT : T = (V.takeWhile pr).length) (hTlt : T < V.length)
    (hx : pr x = true) :
    (V.set T x).takeWhile pr =
      V.takeWhile pr ++ x :: (V.drop (T + 1)).takeWhile pr := by
  induction V generalizing T with
  | nil => simp at hTlt
  | cons v Vs ih =>
    cases hpv : pr v with
    | false =>
      have hT0 : T = 0 := by
        rw [hT, List.takeWhile_cons_of_neg (by simp [hpv])]
        rfl
      subst hT0
      rw [List.set_cons_zero, List.takeWhile_cons_of_pos hx,
        List.takeWhile_cons_of_neg (by simp [hpv])]
      rfl
    | true =>
      have hTs : T = (Vs.takeWhile pr).length + 1 := by
        rw [hT, List.takeWhile_cons_of_pos hpv]
        rfl
      rw [hTs, List.set_cons_succ, List.takeWhile_cons_of_pos hpv,
        List.takeWhile_cons_of_pos hpv,
        ih ((Vs.takeWhile pr).length) rfl (by simp at hTlt; omega)]
      rfl

/-- Setting a slot strictly after the break point of a takeWhile scan. -/
theorem takeWhile_set_later {α : Type} (V : List α) (pr : α → Bool) (x : α)
    (T : Nat) (hT : (V.takeWhile pr).length < T) :
    (V.set T x).takeWhile pr = V.takeWhile pr := by
  induction V generalizing T with
  | nil => simp
  | cons v Vs ih =>
    cases hpv : pr v with
    | false =>
      have h0 : 0 < T := by
        have := hT
        omega
      obtain ⟨T', rfl⟩ : ∃ T', T = T' + 1 := ⟨T - 1, by omega⟩
      rw [List.set_cons_succ, List.takeWhile_cons_of_neg (by simp [hpv]),
        List.takeWhile_cons_of_neg (by simp [hpv])]
    | true =>
      rw [List.takeWhile_cons_of_pos hpv] at hT
      obtain ⟨T', rfl⟩ : ∃ T', T = T' + 1 := ⟨T - 1, by omega⟩
      rw [List.set_cons_succ, List.takeWhile_cons_of_pos hpv,
        List.takeWhile_cons_of_pos hpv, ih T' (by simp at hT; omega)]

theorem mem_drop_getD {α : Type} (V : List α) (k : Nat) (x d : α)
    (hx : x ∈ V.drop k) :
    ∃ t, k ≤ t ∧ t < V.length ∧ V.getD t d = x := by
  obtain ⟨tB, htB, hxB⟩ := List.getElem_of_mem hx
  have hlen : (V.drop k).length = V.length - k := List.length_drop k V
  refine ⟨k + tB, Nat.le_add_right _ _, by omega, ?_⟩
  rw [getD_eq_getElem _ _ _ (by omega), ← List.getElem_drop]
  exact hxB

/-- Replacing one empty sentinel slot by `p` extends the slot multiset by
`p`. -/
theorem set_zero_perm (slots ps : List (Nat × Nat)) (p : Nat × Nat) (js : Nat)
    (hjs : js < slots.length) (h0 : slots.getD js (0, 0) = (0, 0))
    (hPerm : slots.Perm (ps ++ List.replicate (slots.length - ps.length) (0, 0)))
    (hlt : ps.length < slots.length) :
    (slots.set js p).Perm ((ps ++ [p]) ++
      List.replicate ((slots.set js p).length - (ps ++ [p]).length) (0, 0)) := by
  have hdec : slots = slots.take js ++ (0, 0) :: slots.drop (js + 1) := by
    conv_lhs => rw [← List.take_append_drop js slots]
    congr 1
    rw [← List.getElem_cons_drop slots js hjs]
    congr 1
    rw [← h0, getD_eq_getElem slots js (0, 0) hjs]
  have hlen : (slots.take js).length = js := by
    rw [List.length_take]
    omega
  have hset : slots.set js p = slots.take js ++ p :: slots.drop (js + 1) := by
    conv_lhs => rw [hdec]
    rw [List.set_append_right _ _ (by omega), hlen, Nat.sub_self,
      List.set_cons_zero]
  have hperm1 : slots.Perm ((0, 0) ::
      (slots.take js ++ slots.drop (js + 1))) := by
    conv_lhs => rw [hdec]
    exact List.perm_middle
  have hk : slots.length - ps.length = (slots.length - (ps ++ [p]).length) + 1 := by
    rw [List.length_append]
    simp only [List.length_cons, List.length_nil]
    omega
  have hperm2 : (ps ++ List.replicate (slots.length - ps.length) (0, 0)).Perm
      ((0, 0) :: (ps ++ List.replicate (slots.length - (ps ++ [p]).length)
        (0, 0))) := by
    rw [hk, List.replicate_succ]
    exact List.perm_middle
  have hperm3 : (slots.take js ++ slots.drop (js + 1)).Perm
      (ps ++ List.replicate (slots.length - (ps ++ [p]).length) (0, 0)) :=
    List.Perm.cons_inv ((hperm1.symm.trans hPerm).trans hperm2)
  rw [List.length_set, hset]
  refine List.Perm.trans List.perm_middle ?_
  refine List.Perm.trans (hperm3.cons p) ?_
  rw [List.append_assoc]
  exact List.perm_middle.symm

/-- One placement step preserves the invariant. -/
theorem Inv_step (ps slots : List (Nat × Nat)) (p : Nat × Nat)
    (hInv : Inv ps slots) (hp : p.1 ≠ 0) (hps : ∀ q ∈ ps, q.1 ≠ 0)
    (hlt : ps.length < slots.length) :
    Inv (ps ++ [p]) (placePair slots p) := by
  obtain ⟨hPerm, hHole, hScan⟩ := hInv
  have hn : 0 < slots.length := by omega
  -- a free slot exists, so find? succeeds
  have hzero_mem : ((0 : Nat), (0 : Nat)) ∈ slots := by
    apply hPerm.mem_iff.mpr
    apply List.mem_append_right
    exact List.mem_replicate.mpr ⟨by omega, rfl⟩
  obtain ⟨j0, hj0lt, hj0⟩ := List.getElem_of_mem hzero_mem
  have hpred_t0 : (fun j => (slots.getD (((p.1 >>> 8) % slots.length + j) %
      slots.length) (0, 0)).1 == 0)
      ((j0 + slots.length - (p.1 >>> 8) % slots.length) % slots.length) = true := by
    show ((slots.getD (((p.1 >>> 8) % slots.length +
      (j0 + slots.length - (p.1 >>> 8) % slots.length) % slots.length) %
      slots.length) (0, 0)).1 == 0) = true
    rw [pslot_pidx _ _ _ (Nat.mod_lt _ hn) hj0lt,
      getD_eq_getElem _ _ _ hj0lt, hj0]
    rfl
  obtain ⟨Z, hfind⟩ := find?_range_isSome slots.length
    (fun j => (slots.getD (((p.1 >>> 8) % slots.length + j) % slots.length)
      (0, 0)).1 == 0)
    ((j0 + slots.length - (p.1 >>> 8) % slots.length) % slots.length)
    (Nat.mod_lt _ hn) hpred_t0
  obtain ⟨hpredZ, hZlt, hZmin⟩ := find?_range_spec _ _ _ hfind
  have hplace := placePair_eq_set slots p Z hfind
  have hjs_lt : ((p.1 >>> 8) % slots.length + Z) % slots.length < slots.length :=
    Nat.mod_lt _ hn
  have hsZ : (slots.getD (((p.1 >>> 8) % slots.length + Z) % slots.length)
      (0, 0)).1 = 0 := by
    simpa using hpredZ
  have hsZ0 : slots.getD (((p.1 >>> 8) % slots.length + Z) % slots.length)
      (0, 0) = (0, 0) := by
    rcases List.mem_append.mp (hPerm.mem_iff.mp
      (getD_mem slots _ (0, 0) hjs_lt)) with hmem | hmem
    · exact absurd hsZ (hps _ hmem)
    · exact List.eq_of_mem_replicate hmem
  rw [hplace]
  refine ⟨?_, ?_, ?_⟩
  · exact set_zero_perm slots ps p _ hjs_lt hsZ0 hPerm hlt
  · -- hole-freeness component
    intro hm t2 ht2 hhm hnz t1 ht1
    simp only [List.length_set] at ht2 hhm hnz ⊢
    by_cases hcase : (hm + t2) % slots.length =
        ((p.1 >>> 8) % slots.length + Z) % slots.length
    · rw [hcase, getD_set_self _ _ _ _ hjs_lt] at hhm hnz
      rw [hhm] at hcase
      have ht2Z : t2 = Z :=
        mod_add_cancel slots.length _ t2 Z ht2 hZlt hcase
      by_cases hc1 : (hm + t1) % slots.length =
          ((p.1 >>> 8) % slots.length + Z) % slots.length
      · rw [hc1, getD_set_self _ _ _ _ hjs_lt]
        exact hp
      · rw [getD_set_ne _ _ _ _ _ (fun h => hc1 h.symm)]
        have hmin := hZmin t1 (by omega)
        rw [hhm]
        intro hcontra
        rw [hcontra] at hmin
        simp at hmin
    · rw [getD_set_ne _ _ _ _ _ (fun h => hcase h.symm)] at hhm hnz
      have hold := hHole hm t2 ht2 hhm hnz t1 ht1
      by_cases hc1 : (hm + t1) % slots.length =
          ((p.1 >>> 8) % slots.length + Z) % slots.length
      · rw [hc1, getD_set_self _ _ _ _ hjs_lt]
        exact hp
      · rw [getD_set_ne _ _ _ _ _ (fun h => hc1 h.symm)]
        exact hold
  · -- scan component
    intro h
    rw [List.filter_append]
    unfold scanOf
    simp only [List.length_set]
    have hm_lt : (h >>> 8) % slots.length < slots.length := Nat.mod_lt _ hn
    rw [pView_set slots _ _ p hm_lt hjs_lt]
    have hTlt : ((((p.1 >>> 8) % slots.length + Z) % slots.length) +
        slots.length - (h >>> 8) % slots.length) % slots.length <
        slots.length := Nat.mod_lt _ hn
    have hVlen := pView_length slots ((h >>> 8) % slots.length)
    have hVT : (pView slots ((h >>> 8) % slots.length)).getD
        (((((p.1 >>> 8) % slots.length + Z) % slots.length) +
          slots.length - (h >>> 8) % slots.length) % slots.length) (0, 0) =
        (0, 0) := by
      rw [pView_getD _ _ _ (by omega),
        pslot_pidx slots.length _ _ hm_lt hjs_lt]
      exact hsZ0
    have hZh_le : ((pView slots ((h >>> 8) % slots.length)).takeWhile
        (fun s => !(s.1 == 0))).length ≤
        ((((p.1 >>> 8) % slots.length + Z) % slots.length) +
          slots.length - (h >>> 8) % slots.length) % slots.length := by
      by_contra hcon
      push_neg at hcon
      have h1 := takeWhile_getD (pView slots ((h >>> 8) % slots.length))
        (fun s => !(s.1 == 0)) _ (0, 0) hcon
      rw [hVT] at h1
      simp at h1
    -- elements of the view past the break point never carry hash h
    have hQB : ∀ x ∈ ((pView slots ((h >>> 8) % slots.length)).drop
        ((((pView slots ((h >>> 8) % slots.length)).takeWhile
          (fun s => !(s.1 == 0))).length) + 1)).takeWhile (fun s => !(s.1 == 0)),
        ¬(x.1 == h) = true := by
      intro x hx hxh
      have hxh' : x.1 = h := by simpa using hxh
      have hxnz : x.1 ≠ 0 := by
        have := mem_takeWhile_pred _ _ x hx
        simpa using this
      have hxmem := List.takeWhile_subset _ hx
      obtain ⟨t2, ht2ge, ht2lt, ht2eq⟩ := mem_drop_getD _ _ x (0, 0) hxmem
      rw [hVlen] at ht2lt
      have hxview : slots.getD (((h >>> 8) % slots.length + t2) %
          slots.length) (0, 0) = x := by
        rw [← pView_getD _ _ _ ht2lt]
        exact ht2eq
      -- the takeWhile break point is an empty slot before t2 on the path
      have hZh_lt_n : ((pView slots ((h >>> 8) % slots.length)).takeWhile
          (fun s => !(s.1 == 0))).length < slots.length := by omega
      have hbreak : (slots.getD (((h >>> 8) % slots.length +
          (((pView slots ((h >>> 8) % slots.length)).takeWhile
            (fun s => !(s.1 == 0))).length)) % slots.length) (0, 0)).1 = 0 := by
        have hb := takeWhile_break (pView slots ((h >>> 8) % slots.length))
          (fun s => !(s.1 == 0)) (0, 0) (by omega)
        rw [pView_getD _ _ _ hZh_lt_n] at hb
        simpa using hb
      have happly := hHole ((h >>> 8) % slots.length) t2 ht2lt
        (by rw [hxview, hxh']) (by rw [hxview]; exact hxnz)
        (((pView slots ((h >>> 8) % slots.length)).takeWhile
          (fun s => !(s.1 == 0))).length) (by omega)
      exact happly hbreak
    by_cases hcaseT : ((((p.1 >>> 8) % slots.length + Z) % slots.length) +
        slots.length - (h >>> 8) % slots.length) % slots.length =
        ((pView slots ((h >>> 8) % slots.length)).takeWhile
          (fun s => !(s.1 == 0))).length
    · -- insertion lands exactly on the break point
      rw [hcaseT, takeWhile_set_break _ _ p _ rfl (by omega) (by simpa using hp)]
      rw [List.filter_append, List.filter_cons]
      have hTWB : (((pView slots ((h >>> 8) % slots.length)).drop
          ((((pView slots ((h >>> 8) % slots.length)).takeWhile
            (fun s => !(s.1 == 0))).length) + 1)).takeWhile
          (fun s => !(s.1 == 0))).filter (fun s => s.1 == h) = [] := by
        rw [List.filter_eq_nil_iff]
        exact hQB
      rw [hTWB]
      have hps_eq := hScan h
      unfold scanOf at hps_eq
      rw [hps_eq]
      by_cases hph : (p.1 == h) = true <;>
        simp [List.filter_cons, hph]
    · -- insertion lands strictly past the break point
      have hTgt : ((pView slots ((h >>> 8) % slots.length)).takeWhile
          (fun s => !(s.1 == 0))).length <
          ((((p.1 >>> 8) % slots.length + Z) % slots.length) +
            slots.length - (h >>> 8) % slots.length) % slots.length := by
        omega
      rw [takeWhile_set_later _ _ p _ hTgt]
      have hps_eq := hScan h
      unfold scanOf at hps_eq
      rw [hps_eq]
      -- p's hash cannot be h here
      have hph : ¬(p.1 == h) = true := by
        intro hph
        have hph' : p.1 = h := by simpa using hph
        -- with equal hashes the insertion point is the break point
        apply hcaseT
        have hhm_eq : (h >>> 8) % slots.length = (p.1 >>> 8) % slots.length := by
          rw [hph']
        rw [hhm_eq, pidx_pslot slots.length _ Z (Nat.mod_lt _ hn) hZlt]
        -- Z equals the takeWhile break length
        have hZ_le : Z ≤ ((pView slots ((p.1 >>> 8) % slots.length)).takeWhile
            (fun s => !(s.1 == 0))).length := by
          by_contra hcon
          push_neg at hcon
          have hZh_lt_n2 : ((pView slots ((p.1 >>> 8) % slots.length)).takeWhile
              (fun s => !(s.1 == 0))).length < slots.length := by omega
          have hb := takeWhile_break (pView slots ((p.1 >>> 8) % slots.length))
            (fun s => !(s.1 == 0)) (0, 0) (by
              have := pView_length slots ((p.1 >>> 8) % slots.length)
              omega)
          rw [pView_getD _ _ _ hZh_lt_n2] at hb
          have hmin := hZmin _ hcon
          simp only [hmin] at hb
          simp at hb
        have hZ_ge : ((pView slots ((p.1 >>> 8) % slots.length)).takeWhile
            (fun s => !(s.1 == 0))).length ≤ Z := by
          by_contra hcon
          push_neg at hcon
          have h1 := takeWhile_getD (pView slots ((p.1 >>> 8) % slots.length))
            (fun s => !(s.1 == 0)) Z (0, 0) hcon
          have h2 : (!((slots.getD ((p.1 >>> 8 % slots.length + Z) %
              slots.length) (0, 0)).1 == 0)) = true := by
            have h3 := h1.2
            rw [pView_getD _ _ _ hZlt] at h3
            exact h3
          rw [hsZ] at h2
          simp at h2
        omega
      rw [List.filter_cons, if_neg hph]
      simp

theorem Inv_foldl (l : List (Nat × Nat)) (ps slots : List (Nat × Nat))
    (hInv : Inv ps slots) (hpl : ∀ q ∈ l, q.1 ≠ 0) (hps : ∀ q ∈ ps, q.1 ≠ 0)
    (hle : ps.length + l.length ≤ slots.length) :
    Inv (ps ++ l) (l.foldl placePair slots) := by
  induction l generalizing ps slots with
  | nil => simpa using hInv
  | cons p t ih =>
    rw [List.foldl_cons]
    have hstep := Inv_step ps slots p hInv (hpl p (List.mem_cons_self p t)) hps
      (by simp at hle; omega)
    have hps' : ∀ q ∈ ps ++ [p], q.1 ≠ 0 := by
      intro q hq
      rcases List.mem_append.mp hq with hq | hq
      · exact hps q hq
      · rw [List.mem_singleton.mp hq]
        exact hpl p (List.mem_cons_self p t)
    have hle' : (ps ++ [p]).length + t.length ≤ (placePair slots p).length := by
      rw [placePair_length, List.length_append]
      simp only [List.length_cons, List.length_nil]
      simp at hle
      omega
    have h2 := ih (ps ++ [p]) (placePair slots p) hstep
      (fun q hq => hpl q (List.mem_cons_of_mem p hq)) hps' hle'
    rw [List.append_assoc] at h2
    simpa using h2

theorem buildTable_Inv (tbl : List (Nat × Nat)) (h0 : ∀ q ∈ tbl, q.1 ≠ 0) :
    Inv tbl (buildTable tbl) := by
  have h := Inv_foldl tbl [] (List.replicate (tbl.length <<< 1) (0, 0))
    (Inv_nil _) h0 (by intro q hq; cases hq)
    (by simp [Nat.shiftLeft_eq]; omega)
  simpa using h

/-- The probe scan over a built table recovers exactly the pending pairs
with the queried hash, in insertion order. -/
theorem buildTable_scanOf (tbl : List (Nat × Nat)) (h0 : ∀ q ∈ tbl, q.1 ≠ 0)
    (h : Nat) :
    scanOf (buildTable tbl) h = tbl.filter (fun q => q.1 == h) :=
  (buildTable_Inv tbl h0).2.2 h

/-- With nonzero hashes, placement is injective: the built table holds each
pending pair once, plus `|tbl|` empty sentinels. -/
theorem buildTable_perm (tbl : List (Nat × Nat)) (h0 : ∀ q ∈ tbl, q.1 ≠ 0) :
    (buildTable tbl).Perm (tbl ++ List.replicate tbl.length (0, 0)) := by
  have h := (buildTable_Inv tbl h0).1
  have hlen : (buildTable tbl).length - tbl.length = tbl.length := by
    rw [buildTable_length, Nat.shiftLeft_eq]
    omega
  rwa [hlen] at h

/-! ### Reduction of `gets` on a built image -/

theorem and_255_eq_mod (x : Nat) : x &&& 0xff = x % 256 := by
  have h : (0xff : Nat) = 2 ^ 8 - 1 := by norm_num
  rw [h, Nat.and_pow_two_sub_one_eq_mod]

theorem idx_eq (h : Nat) : (h <<< 3) &&& 2047 = 8 * (h % 256) := by
  rw [Nat.shiftLeft_eq]
  have h2 : (2047 : Nat) = 2 ^ 11 - 1 := by norm_num
  rw [h2, Nat.and_pow_two_sub_one_eq_mod]
  have h3 : (2 : Nat) ^ 11 = 2048 := by norm_num
  have h4 : (2 : Nat) ^ 3 = 8 := by norm_num
  rw [h3, h4]
  omega

theorem mem_xrange8 (a b pos : Nat) (h : pos ∈ xrange8 a b) :
    ∃ t, t < (b - a) / 8 ∧ pos = a + 8 * t := by
  unfold xrange8 at h
  rcases List.mem_map.mp h with ⟨t, ht, rfl⟩
  exact ⟨t, List.mem_range.mp ht, rfl⟩

theorem getsAux_nil (data : Bytes) (hsh : Nat) (key : Bytes)
    (positions : List Nat)
    (h : ∀ pos ∈ positions, (read_2_le4 data pos).1 = 0 ∨
      _get_value data ((read_2_le4 data pos).2) key = none) :
    getsAux data hsh key positions = [] := by
  induction positions with
  | nil => rfl
  | cons pos rest ih =>
    simp only [getsAux]
    have hrest := ih (fun q hq => h q (List.mem_cons_of_mem _ hq))
    by_cases h0 : (read_2_le4 data pos).1 = 0
    · rw [if_pos h0]
    · rw [if_neg h0]
      rcases h pos (List.mem_cons_self _ _) with h1 | hnone
      · exact absurd h1 h0
      · by_cases hh : (read_2_le4 data pos).1 = hsh
        · rw [if_pos hh, hnone, hrest]
        · rw [if_neg hh, hrest]

theorem probe_positions (off j0 ns : Nat) (hj0 : j0 < ns) :
    xrange8 (off + 8 * j0) (off + 8 * ns) ++ xrange8 off (off + 8 * j0) =
      ((List.range ns).map (fun t => (j0 + t) % ns)).map
        (fun j => off + 8 * j) := by
  unfold xrange8
  have h1 : (off + 8 * ns - (off + 8 * j0)) / 8 = ns - j0 := by omega
  have h2 : (off + 8 * j0 - off) / 8 = j0 := by omega
  rw [h1, h2]
  have h3 : List.range ns = List.range (ns - j0) ++
      (List.range j0).map ((ns - j0) + ·) := by
    rw [← List.range_add]
    congr 1
    omega
  rw [h3, List.map_append, List.map_append]
  congr 1
  · rw [List.map_map]
    apply List.map_congr_left
    intro t ht
    have htlt : t < ns - j0 := List.mem_range.mp ht
    show off + 8 * j0 + 8 * t = off + 8 * ((j0 + t) % ns)
    rw [Nat.mod_eq_of_lt (by omega)]
    omega
  · rw [List.map_map, List.map_map]
    apply List.map_congr_left
    intro t ht
    have htlt : t < j0 := List.mem_range.mp ht
    show off + 8 * t = off + 8 * ((j0 + (ns - j0 + t)) % ns)
    have h4 : j0 + (ns - j0 + t) = ns + t := by omega
    rw [h4, Nat.add_comm ns t, Nat.add_mod_right, Nat.mod_eq_of_lt (by omega)]

/-- The slot loop over exact slot values. -/
theorem getsAux_eq (data : Bytes) (hsh : Nat) (key : Bytes) (off : Nat)
    (slots : List (Nat × Nat))
    (hread : ∀ j, j < slots.length → read_2_le4 data (off + 8 * j) =
      slots.getD j (0, 0))
    (ts : List Nat) (hts : ∀ t ∈ ts, t < slots.length) :
    getsAux data hsh key (ts.map (fun t => off + 8 * t)) =
      (((ts.map (fun t => slots.getD t (0, 0))).takeWhile
        (fun s => !(s.1 == 0))).filter (fun s => s.1 == hsh)).filterMap
        (fun q => _get_value data q.2 key) := by
  induction ts with
  | nil => rfl
  | cons t ts ih =>
    simp only [List.map_cons, getsAux]
    rw [hread t (hts t (List.mem_cons_self _ _))]
    have hrest := ih (fun u hu => hts u (List.mem_cons_of_mem _ hu))
    by_cases h0 : (slots.getD t (0, 0)).1 = 0
    · rw [if_pos h0, List.takeWhile_cons_of_neg (by simpa using h0)]
      rfl
    · rw [if_neg h0, List.takeWhile_cons_of_pos (by simpa using h0),
        List.filter_cons]
      by_cases hh : (slots.getD t (0, 0)).1 = hsh
      · rw [if_pos hh, if_pos (show ((slots.getD t (0, 0)).1 == hsh) = true by
          simpa using hh)]
        rw [List.filterMap_cons]
        cases hgv : _get_value data (slots.getD t (0, 0)).2 key with
        | none => rw [hrest]
        | some v => rw [hrest]
      · rw [if_neg hh, if_neg (show ¬ ((slots.getD t (0, 0)).1 == hsh) = true by
          simpa using hh), hrest]

theorem filterMap_filter {α β : Type} (l : List α) (p : α → Bool)
    (g : α → Option β) :
    (l.filter p).filterMap g =
      l.filterMap (fun a => if p a then g a else none) := by
  induction l with
  | nil => rfl
  | cons x t ih =>
    rw [List.filter_cons]
    by_cases hx : p x
    · rw [if_pos hx]
      cases hgx : g x with
      | none =>
        rw [List.filterMap_cons_none hgx, ih,
          List.filterMap_cons_none (by rw [if_pos hx]; exact hgx)]
      | some b =>
        rw [List.filterMap_cons_some hgx, ih,
          List.filterMap_cons_some (by rw [if_pos hx]; exact hgx)]
    · rw [if_neg hx, ih,
        List.filterMap_cons_none (by rw [if_neg hx])]

theorem filterMap_congr_mem {α β : Type} (l : List α) (g1 g2 : α → Option β)
    (h : ∀ a ∈ l, g1 a = g2 a) : l.filterMap g1 = l.filterMap g2 := by
  induction l with
  | nil => rfl
  | cons x t ih =>
    have hx := h x (List.mem_cons_self _ _)
    have ht := ih (fun a ha => h a (List.mem_cons_of_mem _ ha))
    cases hgx : g2 x with
    | none =>
      rw [List.filterMap_cons_none (hx.trans hgx),
        List.filterMap_cons_none hgx, ht]
    | some b =>
      rw [List.filterMap_cons_some (hx.trans hgx),
        List.filterMap_cons_some hgx, ht]

theorem tagged_filterMap_result (f : Bytes → Nat) (key : Bytes)
    (l : List (Bytes × Bytes)) (pos : Nat) :
    (tagged f l pos).filterMap
      (fun x => if x.2.1 = key then some x.2.2 else none) =
      (l.filter (fun e => e.1 == key)).map (·.2) := by
  induction l generalizing pos with
  | nil => rfl
  | cons e t ih =>
    simp only [tagged, List.filter_cons]
    by_cases hk : e.1 = key
    · rw [List.filterMap_cons_some (by
        show (if e.1 = key then some e.2 else none) = some e.2
        rw [if_pos hk]), if_pos (by simp [hk]), List.map_cons, ih]
    · rw [List.filterMap_cons_none (by
        show (if e.1 = key then some e.2 else none) = none
        rw [if_neg hk]), if_neg (by simp [hk]), ih]

theorem bkt_mem_tagged (f : Bytes → Nat) (es : List (Bytes × Bytes)) (b : Nat)
    (q : Nat × Nat) (hq : q ∈ bkt f es b) :
    ∃ x ∈ tagged f es 2048, x.1 = q := by
  have hq2 : q ∈ hpairs f es := (List.mem_filter.mp hq).1
  rcases List.mem_map.mp hq2 with ⟨x, hx, hxq⟩
  exact ⟨x, hx, hxq⟩

theorem bkt_props (f : Bytes → Nat) (es : List (Bytes × Bytes)) (b : Nat)
    (q : Nat × Nat) (hq : q ∈ bkt f es b) :
    (∃ e ∈ es, q.1 = f e.1) ∧ 2048 ≤ q.2 ∧
      q.2 + 8 ≤ 2048 + (dataRegion es).length := by
  obtain ⟨x, hx, hxq⟩ := bkt_mem_tagged f es b q hq
  have h1 := tagged_fst_hash f es 2048 x hx
  have h2 := tagged_pos_bound f es 2048 x hx
  have h3 := tagged_entry_mem f es 2048 x hx
  refine ⟨⟨x.2, h3, ?_⟩, ?_, ?_⟩
  · rw [← hxq]
    exact h1
  · rw [← hxq]
    exact h2.1
  · rw [← hxq]
    exact h2.2

theorem bkt_hash_ne0 (f : Bytes → Nat) (es : List (Bytes × Bytes))
    (hne0 : ∀ e ∈ es, f e.1 ≠ 0) (b : Nat) :
    ∀ q ∈ bkt f es b, q.1 ≠ 0 := by
  intro q hq
  obtain ⟨⟨e, he, hqh⟩, _, _⟩ := bkt_props f es b q hq
  rw [hqh]
  exact hne0 e he

/-- With in-range hashes, slot reads recover the slot pair exactly. -/
theorem read_table_slot_exact (f : Bytes → Nat) (es : List (Bytes × Bytes))
    (hlt32 : ∀ e ∈ es, f e.1 < 4294967296) (hsz : imageSize es < 4294967296)
    (b : Nat) (hb : b < 256) (j : Nat)
    (hj : j < (buildTable (bkt f es b)).length) :
    read_2_le4 (image f es) (off f es b + 8 * j) =
      (buildTable (bkt f es b)).getD j (0, 0) := by
  rw [read_table_slot f es b hb j hj]
  rcases buildTable_mem (bkt f es b) _ (getD_mem _ j (0, 0) hj) with hq | hq
  · rw [hq]
    rfl
  · obtain ⟨⟨e, he, hqh⟩, hpos1, hpos2⟩ := bkt_props f es b _ hq
    have hq1 : ((buildTable (bkt f es b)).getD j (0, 0)).1 < 4294967296 := by
      rw [hqh]
      exact hlt32 e he
    have hq2 : ((buildTable (bkt f es b)).getD j (0, 0)).2 < 4294967296 := by
      unfold imageSize at hsz
      omega
    rw [Nat.mod_eq_of_lt hq1, Nat.mod_eq_of_lt hq2]

theorem filter_key_nil_of_bkt_nil (f : Bytes → Nat) (es : List (Bytes × Bytes))
    (key : Bytes) (hnil : (bkt f es (f key % 256)).length = 0) :
    es.filter (fun e => e.1 == key) = [] := by
  rw [bkt_length_eq, List.length_eq_zero] at hnil
  rw [List.filter_eq_nil_iff]
  intro e he hek
  have hek' : e.1 = key := by simpa using hek
  have hmem : e ∈ es.filter (fun e => f e.1 &&& 0xff == f key % 256) := by
    rw [List.mem_filter]
    refine ⟨he, ?_⟩
    rw [hek', and_255_eq_mod]
    simp
  rw [hnil] at hmem
  cases hmem

/-- On a built image, `_get_value` at an entry's record offset compares the
entry's own key and returns its value. -/
theorem tagged_get_value_image (f : Bytes → Nat) (es : List (Bytes × Bytes))
    (key : Bytes) (hsz : imageSize es < 4294967296) :
    ∀ x ∈ tagged f es 2048,
      _get_value (image f es) x.1.2 key =
        (if x.2.1 = key then some x.2.2 else none) := by
  have h := tagged_get_value f key es
    (tblBytes (idxFrom (2048 + (dataRegion es).length)
      ((List.range 256).map (fun b => bkt f es b))))
    ((((List.range 256).map (fun b => bkt f es b)).map
      (fun t => tblBytes (buildTable t))).flatten)
    (entry_bounds es hsz)
  rw [header_length] at h
  intro x hx
  have h2 := h x hx
  rw [← image_eq] at h2
  exact h2

/-- The collected probe-scan pairs decode to the stored values of the
queried key, in insertion order. -/
theorem scan_result_eq (f : Bytes → Nat) (es : List (Bytes × Bytes))
    (key : Bytes) (hsz : imageSize es < 4294967296) :
    ((bkt f es (f key % 256)).filter (fun q => q.1 == f key)).filterMap
      (fun q => _get_value (image f es) q.2 key) =
      (es.filter (fun e => e.1 == key)).map (·.2) := by
  have habsorb : (bkt f es (f key % 256)).filter (fun q => q.1 == f key) =
      (hpairs f es).filter (fun q => q.1 == f key) := by
    show ((hpairs f es).filter _).filter _ = _
    rw [List.filter_filter]
    apply List.filter_congr
    intro q hq
    by_cases hqk : q.1 = f key
    · have h2 : (q.1 &&& 0xff == f key % 256) = true := by
        rw [hqk, and_255_eq_mod]
        simp
      rw [h2]
      simp [hqk]
    · simp [hqk]
  rw [habsorb]
  show (((tagged f es 2048).map (·.1)).filter _).filterMap _ = _
  rw [List.filter_map, List.filterMap_map, filterMap_filter]
  have hGV := tagged_get_value_image f es key hsz
  rw [filterMap_congr_mem _ _
    (fun x => if x.2.1 = key then some x.2.2 else none) ?_]
  · exact tagged_filterMap_result f key es 2048
  · intro x hx
    have hfst := tagged_fst_hash f es 2048 x hx
    have hgv := hGV x hx
    show (if ((fun q => q.1 == f key) ∘ (fun x => x.1)) x = true then
      ((fun q => _get_value (image f es) q.2 key) ∘ (fun x => x.1)) x
      else none) = _
    by_cases hk : x.2.1 = key
    · have hcond : ((fun q => q.1 == f key) ∘ (fun x => x.1)) x = true := by
        show (x.1.1 == f key) = true
        rw [hfst, hk]
        simp
      rw [if_pos hcond]
      show _get_value (image f es) x.1.2 key =
        (if x.2.1 = key then some x.2.2 else none)
      rw [hgv]
    · by_cases hcond : ((fun q => q.1 == f key) ∘ (fun x => x.1)) x = true
      · rw [if_pos hcond]
        show _get_value (image f es) x.1.2 key =
          (if x.2.1 = key then some x.2.2 else none)
        rw [hgv]
      · rw [if_neg hcond]
        show (none : Option Bytes) =
          (if x.2.1 = key then some x.2.2 else none)
        rw [if_neg hk]

/-- Master lemma: with nonzero 32-bit hashes on the written keys, `gets`
on the built image yields exactly the values stored under the queried
key, in insertion order. -/
theorem gets_image (f : Bytes → Nat) (es : List (Bytes × Bytes)) (key : Bytes)
    (hne0 : ∀ e ∈ es, f e.1 ≠ 0) (hlt32 : ∀ e ∈ es, f e.1 < 4294967296)
    (hsz : imageSize es < 4294967296) :
    gets f (image f es) key = (es.filter (fun e => e.1 == key)).map (·.2) := by
  have hblt : f key % 256 < 256 := Nat.mod_lt _ (by norm_num)
  have hoff_lt : off f es (f key % 256) < 4294967296 :=
    lt_of_le_of_lt (off_le_imageSize f es _ (by omega)) hsz
  have hbkt_lt : 2 * (bkt f es (f key % 256)).length < 4294967296 := by
    have h1 := bkt_length_eq f es (f key % 256)
    have h2 := List.length_filter_le
      (fun e => f e.1 &&& 0xff == f key % 256) es
    unfold imageSize at hsz
    omega
  have hhdr := read_header f es (f key % 256) hblt
  rw [Nat.mod_eq_of_lt hoff_lt, Nat.mod_eq_of_lt hbkt_lt] at hhdr
  unfold gets
  dsimp only
  rw [idx_eq (f key), hhdr]
  by_cases hz : (bkt f es (f key % 256)).length = 0
  · rw [if_pos (by simp [hz])]
    rw [filter_key_nil_of_bkt_nil f es key hz]
    rfl
  · rw [if_neg (by simp [hz])]
    have hns : (buildTable (bkt f es (f key % 256))).length =
        2 * (bkt f es (f key % 256)).length := by
      rw [buildTable_length, Nat.shiftLeft_eq]
      ring
    have hnz : 0 < 2 * (bkt f es (f key % 256)).length := by omega
    have hj0 : (f key >>> 8) % (2 * (bkt f es (f key % 256)).length) <
        2 * (bkt f es (f key % 256)).length := Nat.mod_lt _ hnz
    have hsh3 : ∀ x : Nat, x <<< 3 = 8 * x := by
      intro x
      rw [Nat.shiftLeft_eq]
      ring
    rw [hsh3, hsh3, probe_positions _ _ _ hj0]
    rw [getsAux_eq (image f es) (f key) key (off f es (f key % 256))
      (buildTable (bkt f es (f key % 256)))
      (fun j hj => read_table_slot_exact f es hlt32 hsz _ hblt j hj)
      _ (by
        intro t ht
        rcases List.mem_map.mp ht with ⟨u, _, rfl⟩
        rw [hns]
        exact Nat.mod_lt _ hnz)]
    have hview : ((List.range (2 * (bkt f es (f key % 256)).length)).map
        (fun t => ((f key >>> 8) % (2 * (bkt f es (f key % 256)).length) + t) %
          (2 * (bkt f es (f key % 256)).length))).map
        (fun t => (buildTable (bkt f es (f key % 256))).getD t (0, 0)) =
        pView (buildTable (bkt f es (f key % 256)))
          ((f key >>> 8) % (2 * (bkt f es (f key % 256)).length)) := by
      rw [List.map_map]
      unfold pView
      rw [hns]
      rfl
    rw [hview]
    have hscan := buildTable_scanOf (bkt f es (f key % 256))
      (bkt_hash_ne0 f es hne0 _) (f key)
    unfold scanOf at hscan
    rw [hns] at hscan
    rw [hscan]
    exact scan_result_eq f es key hsz

/-- A key never written yields the empty sequence, for every hash function
(no constraint on the hash values of the written keys). -/
theorem gets_image_absent (f : Bytes → Nat) (es : List (Bytes × Bytes))
    (key : Bytes) (hsz : imageSize es < 4294967296)
    (habs : ∀ e ∈ es, e.1 ≠ key) :
    gets f (image f es) key = [] := by
  have hblt : f key % 256 < 256 := Nat.mod_lt _ (by norm_num)
  have hoff_lt : off f es (f key % 256) < 4294967296 :=
    lt_of_le_of_lt (off_le_imageSize f es _ (by omega)) hsz
  have hbkt_lt : 2 * (bkt f es (f key % 256)).length < 4294967296 := by
    have h1 := bkt_length_eq f es (f key % 256)
    have h2 := List.length_filter_le
      (fun e => f e.1 &&& 0xff == f key % 256) es
    unfold imageSize at hsz
    omega
  have hhdr := read_header f es (f key % 256) hblt
  rw [Nat.mod_eq_of_lt hoff_lt, Nat.mod_eq_of_lt hbkt_lt] at hhdr
  unfold gets
  dsimp only
  rw [idx_eq (f key), hhdr]
  dsimp only
  by_cases hz : (bkt f es (f key % 256)).length = 0
  · rw [if_pos (by simp [hz])]
  · rw [if_neg (by simp [hz])]
    have hns : (buildTable (bkt f es (f key % 256))).length =
        2 * (bkt f es (f key % 256)).length := by
      rw [buildTable_length, Nat.shiftLeft_eq]
      ring
    have hsh3 : ∀ x : Nat, x <<< 3 = 8 * x := by
      intro x
      rw [Nat.shiftLeft_eq]
      ring
    rw [hsh3, hsh3]
    apply getsAux_nil
    intro pos hpos
    have hj0 : (f key >>> 8) % (2 * (bkt f es (f key % 256)).length) <
        2 * (bkt f es (f key % 256)).length := Nat.mod_lt _ (by omega)
    have hposj : ∃ j, j < 2 * (bkt f es (f key % 256)).length ∧
        pos = off f es (f key % 256) + 8 * j := by
      rcases List.mem_append.mp hpos with hmem | hmem
      · obtain ⟨t, htlt, rfl⟩ := mem_xrange8 _ _ _ hmem
        refine ⟨(f key >>> 8) % (2 * (bkt f es (f key % 256)).length) + t,
          by omega, by omega⟩
      · obtain ⟨t, htlt, rfl⟩ := mem_xrange8 _ _ _ hmem
        refine ⟨t, by omega, by omega⟩
    obtain ⟨j, hjlt, rfl⟩ := hposj
    have hread := read_table_slot f es (f key % 256) hblt j (by omega)
    rcases buildTable_mem (bkt f es (f key % 256)) _
      (getD_mem _ j (0, 0) (by omega)) with hq | hq
    · left
      rw [hread, hq]
      rfl
    · right
      rw [hread]
      obtain ⟨x, hx, hxq⟩ := bkt_mem_tagged f es _ _ hq
      have hgv := tagged_get_value_image f es key hsz x hx
      have hb := tagged_pos_bound f es 2048 x hx
      have hpos_lt : ((buildTable (bkt f es (f key % 256))).getD j (0, 0)).2 <
          4294967296 := by
        rw [← hxq]
        unfold imageSize at hsz
        omega
      rw [Nat.mod_eq_of_lt hpos_lt, ← hxq]
      rw [hgv, if_neg (habs x.2 (tagged_entry_mem f es 2048 x hx))]

/-! ### Exact header reads and the table-length sum -/

/-- Header entry `b` of a built image, with the 32-bit reductions discharged
from the size bound. -/
theorem read_header_exact (f : Bytes → Nat) (es : List (Bytes × Bytes)) (b : Nat)
    (hb : b < 256) (hsz : imageSize es < 4294967296) :
    read_2_le4 (image f es) (8 * b) = (off f es b, 2 * (bkt f es b).length) := by
  have h1 : off f es b < 4294967296 :=
    lt_of_le_of_lt (off_le_imageSize f es b (by omega)) hsz
  have h2 : 2 * (bkt f es b).length < 4294967296 := by
    have h3 := bkt_length_eq f es b
    have h4 := List.length_filter_le (fun e => f e.1 &&& 0xff == b) es
    unfold imageSize at hsz
    omega
  rw [read_header f es b hb, Nat.mod_eq_of_lt h1, Nat.mod_eq_of_lt h2]

/-- The sum of the 256 `table_length` header fields of a built image is twice
the record count. -/
theorem sum_tbl_lengths (f : Bytes → Nat) (es : List (Bytes × Bytes))
    (hsz : imageSize es < 4294967296) :
    ((List.range 256).map (fun b => (read_2_le4 (image f es) (8 * b)).2)).sum =
      2 * es.length := by
  have hcongr : ∀ b ∈ List.range 256,
      (fun b => (read_2_le4 (image f es) (8 * b)).2) b =
      (fun b => 2 * (bkt f es b).length) b := by
    intro b hb
    show (read_2_le4 (image f es) (8 * b)).2 = 2 * (bkt f es b).length
    rw [read_header_exact f es b (List.mem_range.mp hb) hsz]
  rw [List.map_congr_left hcongr]
  rw [sum_map_mul_left (List.range 256) 2 (fun b => (bkt f es b).length)]
  rw [bkt_total f es]

/-! ### The claims -/

/-- Claim C1 (corrected): the round trip through `Writer.put*`/`finalize` and
`Reader.gets` returns, for every queried key, exactly the values inserted for
that key, with multiplicity and in insertion order — provided every written
key's hash is nonzero and below 2^32 and the image fits in 32-bit offsets.
The literal claim, quantified over all inputs, fails for keys whose hash is
0 (see the counterexample). -/
theorem claim_C1 (f : Bytes → Nat) (es : List (Bytes × Bytes)) (key : Bytes)
    (hne0 : ∀ e ∈ es, f e.1 ≠ 0) (hlt32 : ∀ e ∈ es, f e.1 < 4294967296)
    (hsz : imageSize es < 4294967296) :
    gets f (image f es) key = (es.filter (fun e => e.1 == key)).map (fun e => e.2) :=
  gets_image f es key hne0 hlt32 hsz

/-- Claim C1, witness: a concrete database with a repeated key, read back in
insertion order. -/
theorem claim_C1_witness :
    (∀ e ∈ ([([100], [1]), ([100], [2]), ([101], [3])] : List (Bytes × Bytes)),
      djb_hash e.1 ≠ 0) ∧
    (∀ e ∈ ([([100], [1]), ([100], [2]), ([101], [3])] : List (Bytes × Bytes)),
      djb_hash e.1 < 4294967296) ∧
    imageSize ([([100], [1]), ([100], [2]), ([101], [3])] : List (Bytes × Bytes)) <
      4294967296 ∧
    gets djb_hash
        (image djb_hash [([100], [1]), ([100], [2]), ([101], [3])]) [100] =
      (([([100], [1]), ([100], [2]), ([101], [3])] : List (Bytes × Bytes)).filter
        (fun e => e.1 == [100])).map (fun e => e.2) :=
  ⟨by decide, by decide, by decide,
    claim_C1 djb_hash [([100], [1]), ([100], [2]), ([101], [3])] [100]
      (by decide) (by decide) (by decide)⟩

/-- Claim C1, counterexample: the byte string `[138,160,32,70,233]` has
`djb_hash` 0; writing it with one value and reading it back with the same
hash function yields nothing, not the inserted value. -/
theorem claim_C1_cex :
    djb_hash [138, 160, 32, 70, 233] = 0 ∧
    gets djb_hash (image djb_hash [([138, 160, 32, 70, 233], [1])])
      [138, 160, 32, 70, 233] = [] :=
  ⟨by decide, by decide⟩

/-- Claim C2 (corrected): with a constant hash function, `gets` on a written
key returns exactly that key's own values and never a different key's,
because the stored key bytes are compared against the query key — provided
the constant is nonzero and below 2^32.  The literal claim, over every
constant 32-bit value, fails for the constant 0 (see the counterexample). -/
theorem claim_C2 (c : Nat) (es : List (Bytes × Bytes)) (key : Bytes)
    (hc0 : c ≠ 0) (hc32 : c < 4294967296) (hsz : imageSize es < 4294967296) :
    gets (fun _ => c) (image (fun _ => c) es) key =
      (es.filter (fun e => e.1 == key)).map (fun e => e.2) ∧
    ∀ v ∈ gets (fun _ => c) (image (fun _ => c) es) key,
      ∃ e ∈ es, e.1 = key ∧ e.2 = v := by
  have h := gets_image (fun _ => c) es key (fun e _ => hc0) (fun e _ => hc32) hsz
  refine ⟨h, ?_⟩
  intro v hv
  rw [h] at hv
  rcases List.mem_map.mp hv with ⟨e, he, rfl⟩
  rcases List.mem_filter.mp he with ⟨hes, hkey⟩
  exact ⟨e, hes, eq_of_beq hkey, rfl⟩

/-- Claim C2, witness: two distinct keys written under the constant hash 7;
looking up the second returns its own value only. -/
theorem claim_C2_witness :
    (7 : Nat) ≠ 0 ∧ (7 : Nat) < 4294967296 ∧
    imageSize ([([1], [10]), ([2], [20])] : List (Bytes × Bytes)) < 4294967296 ∧
    (gets (fun _ => 7) (image (fun _ => 7) [([1], [10]), ([2], [20])]) [2] =
      (([([1], [10]), ([2], [20])] : List (Bytes × Bytes)).filter
        (fun e => e.1 == [2])).map (fun e => e.2) ∧
     ∀ v ∈ gets (fun _ => 7)
        (image (fun _ => 7) ([([1], [10]), ([2], [20])] : List (Bytes × Bytes))) [2],
       ∃ e ∈ ([([1], [10]), ([2], [20])] : List (Bytes × Bytes)),
         e.1 = [2] ∧ e.2 = v) :=
  ⟨by decide, by decide, by decide,
    claim_C2 7 [([1], [10]), ([2], [20])] [2] (by decide) (by decide) (by decide)⟩

/-- Claim C2, counterexample: under the constant hash 0, a written key's
lookup returns nothing rather than its value — the hash field 0 is read as
the empty-slot sentinel. -/
theorem claim_C2_cex :
    gets (fun _ => 0) (image (fun _ => 0) [([1], [7])]) [1] = [] ∧
    (([([1], [7])] : List (Bytes × Bytes)).filter (fun e => e.1 == [1])).map
      (fun e => e.2) = [[7]] :=
  ⟨by decide, by decide⟩

/-- Claim C3 (confirmed): `iteritems` on a built image decodes the record
region `[2048, table_start)` and yields exactly the records written, each
once, with multiplicity, in insertion order; its count is the number of
`put` calls. -/
theorem claim_C3 (f : Bytes → Nat) (es : List (Bytes × Bytes))
    (hsz : imageSize es < 4294967296) :
    iteritems (image f es) = es ∧ (iteritems (image f es)).length = es.length := by
  have h := iteritems_image f es hsz
  exact ⟨h, by rw [h]⟩

/-- Claim C3, witness: a database with a duplicate key and an empty record,
enumerated back verbatim. -/
theorem claim_C3_witness :
    imageSize ([([1], [2]), ([1], [3]), ([], [])] : List (Bytes × Bytes)) <
      4294967296 ∧
    (iteritems (image djb_hash [([1], [2]), ([1], [3]), ([], [])]) =
      [([1], [2]), ([1], [3]), ([], [])] ∧
     (iteritems (image djb_hash [([1], [2]), ([1], [3]), ([], [])])).length =
      ([([1], [2]), ([1], [3]), ([], [])] : List (Bytes × Bytes)).length) :=
  ⟨by decide, claim_C3 djb_hash [([1], [2]), ([1], [3]), ([], [])] (by decide)⟩

/-- Claim C4 (confirmed): in a finalized image, bucket `b`'s header records a
`table_length` of exactly twice the number of records whose key hash mod 256
is `b`, and the 256 `table_length` fields sum to twice the record count. -/
theorem claim_C4 (f : Bytes → Nat) (es : List (Bytes × Bytes))
    (hsz : imageSize es < 4294967296) :
    (∀ b, b < 256 → (read_2_le4 (image f es) (8 * b)).2 =
      2 * (es.filter (fun e => f e.1 % 256 == b)).length) ∧
    ((List.range 256).map (fun b => (read_2_le4 (image f es) (8 * b)).2)).sum =
      2 * es.length := by
  constructor
  · intro b hb
    rw [read_header_exact f es b hb hsz, bkt_length_eq f es b]
    have hfe : es.filter (fun e => f e.1 &&& 0xff == b) =
        es.filter (fun e => f e.1 % 256 == b) :=
      List.filter_congr (fun e _ => by rw [and_255_eq_mod])
    rw [hfe]
  · exact sum_tbl_lengths f es hsz

/-- Claim C4, witness: a two-record database; bucket 0's table length and the
total across the header. -/
theorem claim_C4_witness :
    imageSize ([([1], [5]), ([2], [6])] : List (Bytes × Bytes)) < 4294967296 ∧
    ((List.range 256).map
      (fun b => (read_2_le4 (image djb_hash [([1], [5]), ([2], [6])]) (8 * b)).2)).sum =
      2 * ([([1], [5]), ([2], [6])] : List (Bytes × Bytes)).length ∧
    (read_2_le4 (image djb_hash [([1], [5]), ([2], [6])]) (8 * 0)).2 =
      2 * (([([1], [5]), ([2], [6])] : List (Bytes × Bytes)).filter
        (fun e => djb_hash e.1 % 256 == 0)).length :=
  ⟨by decide,
    (claim_C4 djb_hash [([1], [5]), ([2], [6])] (by decide)).2,
    (claim_C4 djb_hash [([1], [5]), ([2], [6])] (by decide)).1 0 (by decide)⟩

/-- Claim C5 (corrected): when every pending pair of a bucket has a nonzero
hash, finalize's linear probing places each pending pair exactly once — the
built table is a permutation of the pending pairs plus `n` empty slots — and
in particular never drops or overwrites an entry.  The literal claim, over
all pending entries, fails for pairs with hash field 0 (see the
counterexample). -/
theorem claim_C5 (tbl : List (Nat × Nat)) (h0 : ∀ q ∈ tbl, q.1 ≠ 0) :
    (buildTable tbl).Perm (tbl ++ List.replicate tbl.length (0, 0)) ∧
    ∀ q ∈ tbl, q ∈ buildTable tbl := by
  have hp := buildTable_perm tbl h0
  exact ⟨hp, fun q hq => hp.mem_iff.mpr (List.mem_append_left _ hq)⟩

/-- Claim C5, witness: three pairs with colliding homes all end up placed in
the six-slot table. -/
theorem claim_C5_witness :
    (∀ q ∈ ([(1, 100), (257, 101), (513, 102)] : List (Nat × Nat)), q.1 ≠ 0) ∧
    ((buildTable [(1, 100), (257, 101), (513, 102)]).Perm
      ([(1, 100), (257, 101), (513, 102)] ++
        List.replicate ([(1, 100), (257, 101), (513, 102)] : List (Nat × Nat)).length
          (0, 0)) ∧
     ∀ q ∈ ([(1, 100), (257, 101), (513, 102)] : List (Nat × Nat)),
       q ∈ buildTable [(1, 100), (257, 101), (513, 102)]) :=
  ⟨by decide, claim_C5 [(1, 100), (257, 101), (513, 102)] (by decide)⟩

/-- Claim C5, counterexample: a pending pair whose hash field is 0 occupies a
slot that still reads as empty, so the next pair placed on the same probe
path overwrites it and the first pair is dropped from the table. -/
theorem claim_C5_cex :
    buildTable [(0, 2048), (0, 2064)] = [(0, 2064), (0, 0), (0, 0), (0, 0)] ∧
    ¬ (0, 2048) ∈ buildTable [(0, 2048), (0, 2064)] :=
  ⟨by decide, by decide⟩

/-- Claim C6 (confirmed): `len(reader)` over a built image is the sum of the
256 `table_length` header fields and equals twice the number of records
written, not the record count. -/
theorem claim_C6 (f : Bytes → Nat) (es : List (Bytes × Bytes))
    (hsz : imageSize es < 4294967296) :
    reader_len (image f es) = 2 * es.length := by
  unfold reader_len
  exact sum_tbl_lengths f es hsz

/-- Claim C6, witness: two records written, `len` reports twice their
number. -/
theorem claim_C6_witness :
    imageSize ([([1], [2]), ([3], [4])] : List (Bytes × Bytes)) < 4294967296 ∧
    reader_len (image djb_hash [([1], [2]), ([3], [4])]) =
      2 * ([([1], [2]), ([3], [4])] : List (Bytes × Bytes)).length :=
  ⟨by decide, claim_C6 djb_hash [([1], [2]), ([3], [4])] (by decide)⟩

/-- Claim C7 (confirmed): for a key never written, `gets` yields the empty
sequence, `get` without a default fails with `KeyError(key)`, and `get` with
a default returns the default unchanged, whatever its type. -/
theorem claim_C7 (f : Bytes → Nat) (es : List (Bytes × Bytes)) (key : Bytes)
    (hsz : imageSize es < 4294967296) (habs : ∀ e ∈ es, e.1 ≠ key) :
    gets f (image f es) key = [] ∧
    get f (image f es) key = Except.error key ∧
    ∀ (α : Type) (d : α), get_default f (image f es) key d = Sum.inr d := by
  have h := gets_image_absent f es key hsz habs
  refine ⟨h, ?_, ?_⟩
  · unfold get
    rw [h]
  · intro α d
    unfold get_default
    rw [h]

/-- Claim C7, witness: the key `[3]` was never written; lookup misses, `get`
errors, and a `Nat` default comes back untouched. -/
theorem claim_C7_witness :
    imageSize ([([1], [2])] : List (Bytes × Bytes)) < 4294967296 ∧
    (∀ e ∈ ([([1], [2])] : List (Bytes × Bytes)), e.1 ≠ [3]) ∧
    get_default djb_hash (image djb_hash [([1], [2])]) [3] (42 : Nat) =
      Sum.inr 42 :=
  ⟨by decide, by decide,
    (claim_C7 djb_hash [([1], [2])] [3] (by decide) (by decide)).2.2 Nat 42⟩

/-- Claim C8 (confirmed): `djb_hash` starts from 5381 and folds
`h = ((h << 5) + h) XOR c` modulo 2^32 over the key's bytes; on `"dave"` it
is 2087378131 and on `"dave"` repeated five times it is 3529598163. -/
theorem claim_C8 :
    djb_hash [] = 5381 ∧
    (∀ (s : Bytes) (c : Nat),
      djb_hash (s ++ [c]) =
        (((djb_hash s <<< 5) + djb_hash s) ^^^ c) % 4294967296) ∧
    djb_hash [100, 97, 118, 101] = 2087378131 ∧
    djb_hash [100, 97, 118, 101, 100, 97, 118, 101, 100, 97, 118, 101,
      100, 97, 118, 101, 100, 97, 118, 101] = 3529598163 := by
  refine ⟨rfl, ?_, by decide, by decide⟩
  intro s c
  have h : djb_hash (s ++ [c]) =
      (((djb_hash s <<< 5) + djb_hash s) ^^^ c) &&& 0xffffffff := by
    unfold djb_hash
    rw [List.foldl_append]
    rfl
  rw [h]
  have h2 := Nat.and_pow_two_sub_one_eq_mod
    ((((djb_hash s <<< 5) + djb_hash s) ^^^ c)) 32
  norm_num at h2
  exact h2

/-- Claim C9 (confirmed): `might_mask` returns every function other than the
builtin `hash` unchanged; the builtin `hash` itself passes through unchanged
when `hash('dave')` equals the magic 841352530, and is wrapped in a 32-bit
mask otherwise. -/
theorem claim_C9 (hd : Int) (fn : Bytes → Int) :
    might_mask false hd fn = fn ∧
    might_mask true 841352530 fn = fn ∧
    (hd ≠ 841352530 → might_mask true hd fn = fun s => fn s % 4294967296) := by
  unfold might_mask
  refine ⟨if_neg ?_, if_neg ?_, fun h => if_pos ⟨rfl, h⟩⟩
  · simp
  · simp

/-- Claim C9, witness: a custom function returning a value wider than 32 bits
is used unmasked, while the builtin-hash case with a non-magic `hash('dave')`
masks. -/
theorem claim_C9_witness :
    might_mask false 7 (fun _ => 5000000000) = (fun _ => 5000000000) ∧
    might_mask true 841352530 (fun _ => 5000000000) = (fun _ => 5000000000) ∧
    ((7 : Int) ≠ 841352530 ∧
     might_mask true 7 (fun _ => 5000000000) =
       fun _ => (5000000000 : Int) % 4294967296) :=
  ⟨(claim_C9 7 (fun _ => 5000000000)).1,
   (claim_C9 841352530 (fun _ => 5000000000)).2.1,
   by decide,
   (claim_C9 7 (fun _ => 5000000000)).2.2 (by decide)⟩

/-- Claim C10 (confirmed): a Writer with no `put` calls finalizes to a
2048-byte image whose 256 header entries are all `(2048, 0)`; a Reader
accepts it, reports length 0, enumerates nothing, and `gets` misses for
every key under every hash function. -/
theorem claim_C10 (f g : Bytes → Nat) (key : Bytes) :
    (image f []).length = 2048 ∧
    (List.range 256).map (fun b => read_2_le4 (image f []) (8 * b)) =
      List.replicate 256 (2048, 0) ∧
    reader_init (image f []) = some (image f []) ∧
    reader_len (image f []) = 0 ∧
    iteritems (image f []) = [] ∧
    gets g (image f []) key = [] := by
  have hbkt : ∀ b : Nat, bkt f ([] : List (Bytes × Bytes)) b = [] := fun _ => rfl
  have hoff : ∀ b : Nat, off f ([] : List (Bytes × Bytes)) b = 2048 := by
    intro b
    unfold off
    have hz : ((List.range b).map
        (fun c => (bkt f ([] : List (Bytes × Bytes)) c).length)).sum = 0 := by
      have hcg : ∀ x ∈ List.range b,
          (fun c => (bkt f ([] : List (Bytes × Bytes)) c).length) x =
          (fun _ => (0 : Nat)) x := fun x _ => rfl
      rw [List.map_congr_left hcg, List.map_const']
      simp
    rw [hz]
    rfl
  have hhdr : ∀ b : Nat, b < 256 →
      read_2_le4 (image f []) (8 * b) = (2048, 0) := by
    intro b hb
    rw [read_header f [] b hb, hoff b, hbkt b]
    rfl
  have hlen : (image f []).length = 2048 := by
    rw [image_eq f []]
    rw [List.length_append, List.length_append, header_length]
    have hdr0 : (dataRegion ([] : List (Bytes × Bytes))).length = 0 := rfl
    have hfl : ((((List.range 256).map
        (fun b => bkt f ([] : List (Bytes × Bytes)) b)).map
        (fun t => tblBytes (buildTable t))).flatten).length = 0 := by
      rw [List.map_map]
      have hcg : ∀ b ∈ List.range 256,
          ((fun t => tblBytes (buildTable t)) ∘
            (fun b => bkt f ([] : List (Bytes × Bytes)) b)) b =
          (fun _ => ([] : Bytes)) b := fun b _ => rfl
      rw [List.map_congr_left hcg, List.map_const']
      simp
    rw [hdr0, hfl]
  refine ⟨hlen, ?_, ?_, ?_, ?_, ?_⟩
  · rw [List.map_congr_left (fun b hb => hhdr b (List.mem_range.mp hb))]
    rw [List.map_const', List.length_range]
  · unfold reader_init
    rw [if_neg (by rw [hlen]; omega)]
  · unfold reader_len
    apply List.sum_eq_zero
    intro x hx
    rcases List.mem_map.mp hx with ⟨i, hi, rfl⟩
    show (read_2_le4 (image f []) (8 * i)).2 = 0
    rw [hhdr i (List.mem_range.mp hi)]
  · exact iteritems_image f [] (by decide)
  · unfold gets
    dsimp only
    rw [idx_eq (g key), hhdr (g key % 256) (Nat.mod_lt _ (by norm_num))]
    rw [if_pos rfl]

end Cdblib
